import Mathlib

/-!
Verification of the retrieval re-ranking, reference-integrity, extraction/repair
and answer-verification core of the Cloudcomputing-aws repository
(src/app.py and src/rag_app.py).

The Python code is shallowly embedded: text is `List Char`, Python floats are
modelled as rationals (ℚ), the concrete regex substitutions used by the code are
modelled by explicit left-to-right scanners mirroring Python `re.sub` semantics
for those patterns, and fallible operations return `Option`.  Recursive
scanners take an explicit fuel argument (always instantiated with the length of
the input, an upper bound on the number of scanning steps), so that every
definition is structurally recursive and computable by the kernel.
-/

/-- Text is modelled as a list of characters. -/
abbrev Str := List Char

/-- Coerce a Lean string literal to the character-list representation. -/
def strChars (s : String) : Str := s.data

/-- Model of the Python regex class `\s` (whitespace) and of the whitespace set
used by `str.strip`, restricted to the ASCII whitespace characters (the
repository only feeds ASCII/Hangul text through these functions). -/
def isPySpace (c : Char) : Bool :=
  c = ' ' || c = '\t' || c = '\n' || c = '\r' || c = Char.ofNat 11 || c = Char.ofNat 12

/-- Model of the Python regex class `\d` (ASCII decimal digits). -/
def isDigitCh (c : Char) : Bool := '0' ≤ c && c ≤ '9'

/-- Decimal digit character for a digit value 0..9. -/
def digitCh : Nat → Char
  | 0 => '0' | 1 => '1' | 2 => '2' | 3 => '3' | 4 => '4'
  | 5 => '5' | 6 => '6' | 7 => '7' | 8 => '8' | _ => '9'

/-- Fuelled decimal rendering of a natural number (mirrors Python `str(n)` /
f-string formatting of a non-negative int); `n` itself is enough fuel. -/
def toDecF : Nat → Nat → Str
  | 0, n => [digitCh n]
  | fuel + 1, n =>
    if n < 10 then [digitCh n] else toDecF fuel (n / 10) ++ [digitCh (n % 10)]

/-- Decimal rendering of a natural number. -/
def toDec (n : Nat) : Str := toDecF n n

/-- Numeric value of a digit string (mirrors Python `int(s)` on a string of
decimal digits; `int` never fails on strings matched by `\d+`, so the
`ValueError` branch of the code is unreachable). -/
def digitsToNat (ds : Str) : Nat :=
  ds.foldl (fun a c => a * 10 + (c.toNat - 48)) 0

/-! ### Generic model of `re.sub` with a fixed pattern

`re.sub` scans the text left to right; at each position it either matches the
pattern (replacing the match and resuming after it) or moves one character
forward.  A pattern is modelled by a matcher `m : Str → Option (Str × Str)`
returning, on a match at the head of the input, the replacement text and the
remaining input after the match.  All patterns used by the repository match at
least one character, which is the hypothesis `Shrinking m` below. -/

def scanF (m : Str → Option (Str × Str)) : Nat → Str → Str
  | 0, t => t
  | _ + 1, [] => []
  | f + 1, c :: cs =>
    match m (c :: cs) with
    | some (out, rest) => out ++ scanF m f rest
    | none => c :: scanF m f cs

/-- Substitute every occurrence of the pattern recognised by `m`, mirroring
`re.sub` for the patterns of the repository. -/
def scanSub (m : Str → Option (Str × Str)) (t : Str) : Str := scanF m t.length t

/-- Matchers for the patterns of the repository always consume at least one
character. -/
def Shrinking (m : Str → Option (Str × Str)) : Prop :=
  ∀ c cs out rest, m (c :: cs) = some (out, rest) → rest.length ≤ cs.length

/-! ### src/rag_app.py, lines 156-175: reference normalization and cleaning

`normalize_references` is `re.sub(r'\[ID:\s*(\d+)\]', r'[\1]', t, flags=re.IGNORECASE)`;
`clean_hallucinated_references` additionally applies
`re.sub(r'\[(\d+)\]', validator, ·)` where the validator deletes a marker whose
number exceeds `max_doc_count` and keeps it verbatim otherwise, and finally
`re.sub(r'참고:\s*[, ]*$', '참고: (없음)', ·, flags=re.MULTILINE)`. -/

/-- Matcher for `\[ID:\s*(\d+)\]` (IGNORECASE) with replacement `[\1]`, split
out for the tail after the leading `[`.  Since `\s` and `\d` are disjoint the
greedy `\s*` then `\d+` then `]` matching is deterministic. -/
def normMatcherTail (cs : Str) : Option (Str × Str) :=
  match cs with
  | i :: d :: e :: rest =>
    if (i = 'I' ∨ i = 'i') ∧ (d = 'D' ∨ d = 'd') ∧ e = ':' then
      let sp := rest.takeWhile isPySpace
      let rest2 := rest.drop sp.length
      let ds := rest2.takeWhile isDigitCh
      let after := rest2.drop ds.length
      if ds = [] then none
      else if after.head? = some ']' then some ('[' :: ds ++ [']'], after.tail)
      else none
    else none
  | _ => none

def normMatcher (s : Str) : Option (Str × Str) :=
  match s with
  | [] => none
  | c :: cs => if c = '[' then normMatcherTail cs else none

/-- Matcher for `\[(\d+)\]` together with the validator of
`clean_hallucinated_references`: a marker whose number exceeds `cnt` is
replaced by the empty string, any other match is kept verbatim
(`match.group(0)`).  The `ValueError` branch of the validator is unreachable
because `\d+` only matches digit strings, on which `int` succeeds. -/
def remMatcher (cnt : Nat) (s : Str) : Option (Str × Str) :=
  match s with
  | [] => none
  | c :: cs =>
    if c = '[' then
      let ds := cs.takeWhile isDigitCh
      let after := cs.drop ds.length
      if ds = [] then none
      else if after.head? = some ']' then
        some ((if cnt < digitsToNat ds then [] else '[' :: ds ++ [']']), after.tail)
      else none
    else none

/-- End-of-line test of `$` under `re.MULTILINE`: end of the string, or
immediately before a newline. -/
def atEol : Str → Bool
  | [] => true
  | c :: _ => c = '\n'

/-- Backtracking match of `[, ]*$` at the current position: greedily consume
`,`/space characters, backing off one at a time until `$` holds; returns the
number of characters consumed by the first successful alternative. -/
def csEol : Str → Option Nat
  | [] => some 0
  | c :: cs =>
    if c = ',' ∨ c = ' ' then
      match csEol cs with
      | some m => some (m + 1)
      | none => if atEol (c :: cs) then some 0 else none
    else if atEol (c :: cs) then some 0 else none

/-- Backtracking match of `\s*[, ]*$` at the current position; `\s*` is
greedy, backing off one character at a time into `[, ]*$`. -/
def spCsEol : Str → Option Nat
  | [] => some 0
  | c :: cs =>
    if isPySpace c then
      match spCsEol cs with
      | some m => some (m + 1)
      | none => csEol (c :: cs)
    else csEol (c :: cs)

/-- Matcher for `참고:\s*[, ]*$` (MULTILINE) with replacement `참고: (없음)`. -/
def giboMatcher (s : Str) : Option (Str × Str) :=
  match s with
  | c :: d :: e :: rest =>
    if c = '참' ∧ d = '고' ∧ e = ':' then
      match spCsEol rest with
      | some m => some (strChars "참고: (없음)", rest.drop m)
      | none => none
    else none
  | _ => none

/-- Model of `normalize_references` (src/rag_app.py line 161, src/app.py
line 180). -/
def normalize_references (t : Str) : Str := scanSub normMatcher t

/-- Model of the marker-validation pass of `clean_hallucinated_references`. -/
def dropInvalidMarkers (cnt : Nat) (t : Str) : Str := scanSub (remMatcher cnt) t

/-- Model of the trailing-reference-line pass of
`clean_hallucinated_references`. -/
def fixEmptyRefLine (t : Str) : Str := scanSub giboMatcher t

/-- Model of `clean_hallucinated_references` (src/rag_app.py lines 165-175). -/
def clean_hallucinated_references (t : Str) (max_doc_count : Nat) : Str :=
  fixEmptyRefLine (dropInvalidMarkers max_doc_count (normalize_references t))

/-! ### Marker-structured texts

`renderDoc` builds a text as alternating marker-free segments and citation
markers (in either surface form recognised by the filter); this grammar is used
to state what `clean_hallucinated_references` does to every marker. -/

inductive MarkerForm where
  | plain : MarkerForm
  | idform : MarkerForm

structure Piece where
  seg : Str
  num : Nat
  form : MarkerForm

/-- Render a citation marker in the `[N]` or `[ID: N]` surface form. -/
def renderMarker (n : Nat) : MarkerForm → Str
  | .plain => '[' :: (toDec n ++ [']'])
  | .idform => '[' :: ('I' :: 'D' :: ':' :: ' ' :: (toDec n ++ [']']))

def renderDoc : List Piece → Str → Str
  | [], tl => tl
  | p :: ps, tl => p.seg ++ (renderMarker p.num p.form ++ renderDoc ps tl)

/-- The same text with every marker in the canonical `[N]` form. -/
def renderNormalized : List Piece → Str → Str
  | [], tl => tl
  | p :: ps, tl => p.seg ++ (('[' :: (toDec p.num ++ [']'])) ++ renderNormalized ps tl)

/-- The same text with every marker whose number exceeds `cnt` deleted and
every other marker (including `[0]`) kept in canonical form. -/
def renderCleaned (cnt : Nat) : List Piece → Str → Str
  | [], tl => tl
  | p :: ps, tl =>
    p.seg ++ ((if cnt < p.num then [] else '[' :: (toDec p.num ++ [']'])) ++
      renderCleaned cnt ps tl)

/-! ### src/app.py lines 51-101 and src/rag_app.py lines 31-96: merge-and-rerank

`search_knowledge_base` filters retrieved fragments by a score threshold,
groups the survivors by source file (a Python dict preserves first-seen
insertion order), concatenates each group with `"\n".join` in retrieval
order, scores each group with `avg * (1 + (n - 1) * 0.25)`, and sorts the
merged documents by descending score with Python `sorted(..., reverse=True)`,
which is a stable sort.  Scores (Python floats in [0,1]) are modelled as
rationals; the float literals 0.25 and 0.60 are modelled as 1/4 and 3/5. -/

structure Chunk where
  text : Str
  source : String
  score : ℚ
deriving DecidableEq

structure SourceGroup where
  texts : List Str
  scores : List ℚ
  source : String
deriving DecidableEq

structure MergedDoc where
  source : String
  score : ℚ
  text : Str
deriving DecidableEq

/-- Model of the retrieval score threshold `0.60`. -/
def scoreThreshold : ℚ := 3 / 5

/-- Model of `if score < 0.60: continue`. -/
def keepChunk (c : Chunk) : Bool := !(c.score < scoreThreshold)

def filterChunks (cs : List Chunk) : List Chunk := cs.filter keepChunk

/-- Add one fragment to the grouping dict: append the text and score to the
existing entry for its source, or append a fresh entry at the end (Python
dicts preserve insertion order). -/
def addChunk (acc : List SourceGroup) (c : Chunk) : List SourceGroup :=
  match acc with
  | [] => [⟨[c.text], [c.score], c.source⟩]
  | g :: gs =>
    if g.source = c.source then
      ⟨g.texts ++ [c.text], g.scores ++ [c.score], g.source⟩ :: gs
    else g :: addChunk gs c

def groupChunks (cs : List Chunk) : List SourceGroup := cs.foldl addChunk []

/-- Composite score of a group: `avg * (1 + (n - 1) * 0.25)`. -/
def composite (avg : ℚ) (n : Nat) : ℚ := avg * (1 + ((n : ℚ) - 1) * (1 / 4))

/-- Merge one group into a document: average the scores, apply the
corroboration bonus, and join the texts with a newline in retrieval order. -/
def mergeGroup (g : SourceGroup) : MergedDoc :=
  ⟨g.source, composite (g.scores.sum / (g.scores.length : ℚ)) g.scores.length,
   List.intercalate ['\n'] g.texts⟩

def mergedDocs (cs : List Chunk) : List MergedDoc := (groupChunks cs).map mergeGroup

/-- Stable insertion into a descending list: the new element goes after every
element whose score is greater than or equal to its own. -/
def insertDesc (x : MergedDoc) : List MergedDoc → List MergedDoc
  | [] => [x]
  | y :: ys => if y.score < x.score then x :: y :: ys else y :: insertDesc x ys

/-- Model of `sorted(merged, key=lambda x: x["score"], reverse=True)`: Python
guarantees a stable sort, so the result is characterised (uniquely) by being a
permutation, sorted by non-increasing score, with each score class kept in
first-seen order; stable insertion realises that. -/
def sortByScoreDesc (l : List MergedDoc) : List MergedDoc :=
  l.foldl (fun acc x => insertDesc x acc) []

/-- Merge step of `search_knowledge_base` applied to the surviving (already
threshold-filtered) fragments. -/
def searchMergeStep (cs : List Chunk) : List MergedDoc :=
  sortByScoreDesc (mergedDocs cs)

/-- Full pure core of `search_knowledge_base`: threshold filter, then merge. -/
def search_knowledge_base_merge (cs : List Chunk) : List MergedDoc :=
  searchMergeStep (filterChunks cs)


/-! ### src/app.py lines 191-270: answer normalization and verification

`normalize_answer` is `re.sub(r'\\s+', '', text.strip().lower())`: strip,
lowercase, then delete every whitespace run (deleting each run is the same as
deleting every whitespace character, hence the filter).  Python `str.lower`
on the ASCII range is `Char.toLower`; the repository only passes ASCII and
Hangul text, and Hangul has no case.  `get_synonyms` and `check_short_answer`
are direct transcriptions of the code. -/

/-- Model of Python `str.strip()` (drop leading and trailing whitespace). -/
def pyStrip (t : Str) : Str :=
  ((t.dropWhile isPySpace).reverse.dropWhile isPySpace).reverse

/-- Model of `normalize_answer` (src/app.py lines 191-193). -/
def normalize_answer (t : Str) : Str :=
  ((pyStrip t).map Char.toLower).filter (fun c => !isPySpace c)

/-- The `synonym_map` of `get_synonyms` (src/app.py lines 198-228), verbatim. -/
def synonym_map : List (Str × List Str) := [
  (strChars "iam정책", [strChars "아이엠정책", strChars "iam정책",
    strChars "아이엠 정책", strChars "iam 정책"]),
  (strChars "ec2", [strChars "이씨투", strChars "ec2", strChars "이씨2",
    strChars "일라스틱컴퓨트클라우드"]),
  (strChars "s3", [strChars "에스쓰리", strChars "s3", strChars "에스3",
    strChars "심플스토리지서비스"]),
  (strChars "vpc", [strChars "브이피씨", strChars "vpc",
    strChars "가상프라이빗클라우드", strChars "버츄얼프라이빗클라우드"]),
  (strChars "rds", [strChars "알디에스", strChars "rds",
    strChars "관계형데이터베이스서비스", strChars "릴레이셔널데이터베이스서비스"]),
  (strChars "elb", [strChars "이엘비", strChars "elb",
    strChars "일래스틱로드밸런서", strChars "엘라스틱로드밸런서"]),
  (strChars "lambda", [strChars "람다", strChars "lambda", strChars "람다함수",
    strChars "람다 함수"]),
  (strChars "cloudfront", [strChars "클라우드프론트", strChars "cloudfront"]),
  (strChars "route53", [strChars "라우트53", strChars "route53",
    strChars "라우트 53", strChars "라우트피프티쓰리"]),
  (strChars "dynamodb", [strChars "다이나모db", strChars "dynamodb",
    strChars "다이나모디비", strChars "다이나모 db"]),
  (strChars "sns", [strChars "에스엔에스", strChars "sns",
    strChars "심플노티피케이션서비스"]),
  (strChars "sqs", [strChars "에스큐에스", strChars "sqs",
    strChars "심플큐서비스"]),
  (strChars "efs", [strChars "이에프에스", strChars "efs",
    strChars "일래스틱파일시스템"]),
  (strChars "ebs", [strChars "이비에스", strChars "ebs",
    strChars "일래스틱블록스토어"]),
  (strChars "cloudwatch", [strChars "클라우드워치", strChars "cloudwatch"]),
  (strChars "iam", [strChars "아이엠", strChars "iam",
    strChars "아이디엔티티액세스매니지먼트"]),
  (strChars "로드밸런서", [strChars "로드밸런싱", strChars "로드 밸런서",
    strChars "로드 밸런싱", strChars "부하분산"]),
  (strChars "오토스케일링", [strChars "자동확장", strChars "자동 확장",
    strChars "오토 스케일링", strChars "autoscaling"]),
  (strChars "가용영역", [strChars "availability zone", strChars "az",
    strChars "에이지", strChars "가용 영역"]),
  (strChars "리전", [strChars "region", strChars "지역", strChars "리전"]),
  (strChars "스토리지", [strChars "저장소", strChars "storage", strChars "스토리지"]),
  (strChars "인스턴스", [strChars "instance", strChars "인스턴스"]),
  (strChars "버킷", [strChars "bucket", strChars "버킷"]),
  (strChars "스냅샷", [strChars "snapshot", strChars "스냅샷", strChars "스냅 샷"]),
  (strChars "엔드포인트", [strChars "endpoint", strChars "종단점",
    strChars "엔드 포인트"]),
  (strChars "보안그룹", [strChars "security group", strChars "시큐리티그룹",
    strChars "보안 그룹"])]

/-- The lookup loop of `get_synonyms`: return the normalized variant list of
the first entry whose normalized variants contain the normalized input, else
the singleton of the normalized input. -/
def scanSynonyms : List (Str × List Str) → Str → List Str
  | [], n => [n]
  | (_, syns) :: rest, n =>
    if n ∈ syns.map normalize_answer then syns.map normalize_answer
    else scanSynonyms rest n

/-- Model of `get_synonyms` (src/app.py lines 196-237). -/
def get_synonyms (t : Str) : List Str := scanSynonyms synonym_map (normalize_answer t)

/-- Prefix test used to model the Python substring operator. -/
def beginsWith : Str → Str → Bool
  | [], _ => true
  | _ :: _, [] => false
  | p :: ps, t :: ts => p == t && beginsWith ps ts

/-- Model of the Python substring operator `p in t` (contiguous substring). -/
def containsSub (p : Str) : Str → Bool
  | [] => beginsWith p []
  | t :: ts => beginsWith p (t :: ts) || containsSub p ts

/-- Single-quote character used in the feedback messages. -/
def sqCh : Char := Char.ofNat 39

/-- Model of `check_short_answer` (src/app.py lines 240-270); returns
`(is_correct, match_type, message)`.  The nested `if`s mirror the code: a
failing inner condition falls through to the final `wrong` return. -/
def check_short_answer (user_answer correct_answer : Str) : Bool × Str × Str :=
  let user_normalized := normalize_answer user_answer
  let correct_normalized := normalize_answer correct_answer
  let wrongRes : Bool × Str × Str :=
    (false, strChars "wrong",
     strChars "오답입니다. 정답은 " ++ [sqCh] ++ correct_answer ++ [sqCh] ++
       strChars "입니다.")
  if user_normalized = correct_normalized then
    (true, strChars "exact", strChars "정답입니다!")
  else if (get_synonyms user_answer).any
      (fun us => us ∈ get_synonyms correct_answer) then
    (true, strChars "synonym", strChars "정답입니다!")
  else if containsSub user_normalized correct_normalized ||
      containsSub correct_normalized user_normalized then
    if 2 ≤ user_normalized.length ∧ 2 ≤ correct_normalized.length then
      if user_normalized ≠ correct_normalized then
        (false, strChars "partial",
         strChars "아쉽습니다! 정답은 " ++ [sqCh] ++ correct_answer ++ [sqCh] ++
           strChars "입니다.")
      else wrongRes
    else wrongRes
  else wrongRes


/-! ### src/app.py lines 19-27 and 275-380: extraction, repair and batch normalization

`extract_json` locates the first `{` and the last `}`, slices the enclosed span
(Python `text[s:e+1]`) and parses it, returning `None` on any failure; the
`try/except` is modelled by the `Option` result.  `json.loads` is modelled by a
small recursive-descent JSON parser (`jsonLoads`); the model is simplified in
ways no claim depends on: string escapes, fractional and exponent number forms
are not supported.  `rag_answer_chain` then injects metadata into each
extracted question and normalizes short-answer records; `create_error_question`
fabricates a placeholder batch. -/

inductive Json where
  | null : Json
  | bool (b : Bool) : Json
  | num (n : Int) : Json
  | str (s : Str) : Json
  | arr (xs : List Json) : Json
  | obj (kvs : List (Str × Json)) : Json

/-- Left brace character, U+007B. -/
def lbraceCh : Char := Char.ofNat 123

/-- Right brace character, U+007D. -/
def rbraceCh : Char := Char.ofNat 125

/-- Skip JSON whitespace. -/
def jsonWs (t : Str) : Str := t.dropWhile isPySpace

/-- Parse the remainder of a JSON string literal after the opening quote
(simplified: no escape sequences). -/
def parseStringLit : Str → Option (Str × Str)
  | [] => none
  | c :: cs =>
    if c = '"' then some ([], cs)
    else
      match parseStringLit cs with
      | some (s, rest) => some (c :: s, rest)
      | none => none

/-- Parse a JSON integer (simplified: no fraction or exponent). -/
def parseNumber (t : Str) : Option (Json × Str) :=
  match t with
  | '-' :: rest =>
    let ds := rest.takeWhile isDigitCh
    if ds = [] then none
    else some (.num (-(digitsToNat ds : Int)), rest.drop ds.length)
  | _ =>
    let ds := t.takeWhile isDigitCh
    if ds = [] then none
    else some (.num ((digitsToNat ds : Int)), t.drop ds.length)

mutual

def parseValue : Nat → Str → Option (Json × Str)
  | 0, _ => none
  | f + 1, t =>
    match jsonWs t with
    | [] => none
    | c :: cs =>
      if c = lbraceCh then
        match jsonWs cs with
        | d :: ds => if d = rbraceCh then some (.obj [], ds) else parseMembers f (jsonWs cs) []
        | [] => none
      else if c = '[' then
        match jsonWs cs with
        | d :: ds => if d = ']' then some (.arr [], ds) else parseItems f (jsonWs cs) []
        | [] => none
      else if c = '"' then
        match parseStringLit cs with
        | some (s, rest) => some (.str s, rest)
        | none => none
      else if c = 't' then
        match cs with
        | 'r' :: 'u' :: 'e' :: rest => some (.bool true, rest)
        | _ => none
      else if c = 'f' then
        match cs with
        | 'a' :: 'l' :: 's' :: 'e' :: rest => some (.bool false, rest)
        | _ => none
      else if c = 'n' then
        match cs with
        | 'u' :: 'l' :: 'l' :: rest => some (.null, rest)
        | _ => none
      else parseNumber (c :: cs)

def parseMembers : Nat → Str → List (Str × Json) → Option (Json × Str)
  | 0, _, _ => none
  | f + 1, t, acc =>
    match jsonWs t with
    | c :: cs =>
      if c = '"' then
        match parseStringLit cs with
        | some (k, rest) =>
          match jsonWs rest with
          | e :: es =>
            if e = ':' then
              match parseValue f es with
              | some (v, rest2) =>
                match jsonWs rest2 with
                | d :: ds =>
                  if d = ',' then parseMembers f ds (acc ++ [(k, v)])
                  else if d = rbraceCh then some (.obj (acc ++ [(k, v)]), ds)
                  else none
                | [] => none
              | none => none
            else none
          | [] => none
        | none => none
      else none
    | [] => none

def parseItems : Nat → Str → List Json → Option (Json × Str)
  | 0, _, _ => none
  | f + 1, t, acc =>
    match parseValue f t with
    | some (v, rest) =>
      match jsonWs rest with
      | d :: ds =>
        if d = ',' then parseItems f ds (acc ++ [v])
        else if d = ']' then some (.arr (acc ++ [v]), ds)
        else none
      | [] => none
    | none => none

end

/-- Model of `json.loads`: parse one value, reject trailing garbage. -/
def jsonLoads (t : Str) : Option Json :=
  match parseValue (t.length + 1) t with
  | some (v, rest) => if jsonWs rest = [] then some v else none
  | none => none

/-- Model of Python `str.find` (`-1` becomes `none`). -/
def firstIdxOf (c : Char) : Str → Option Nat
  | [] => none
  | x :: xs => if x = c then some 0 else (firstIdxOf c xs).map (· + 1)

/-- Model of Python `str.rfind` (`-1` becomes `none`). -/
def lastIdxOf (c : Char) (t : Str) : Option Nat :=
  match firstIdxOf c t.reverse with
  | none => none
  | some k => some (t.length - 1 - k)

/-- Model of `extract_json` (src/app.py lines 19-27): slice from the first `{`
to the last `}` and parse; `None` when either brace is missing or the payload
is malformed — the `try/except` never lets an exception reach the caller. -/
def extract_json (t : Str) : Option Json :=
  match firstIdxOf lbraceCh t, lastIdxOf rbraceCh t with
  | some s, some e => jsonLoads ((t.drop s).take (e + 1 - s))
  | _, _ => none

structure Expl where
  correct : Str
  wrong : List (Str × Str)
deriving DecidableEq

/-- The keys of an extracted question dict that the normalization step reads;
absent keys are `none`. -/
structure RawQ where
  question : Str
  options : Option (List (Str × Str))
  answer : Option Str
  explanation : Option Expl
  related_concepts : Option (List Str)
deriving DecidableEq

/-- A question record after metadata injection (the mutated dict of
`rag_answer_chain`, src/app.py lines 323-354, or a record fabricated by
`create_error_question`). -/
structure QuestionRecord where
  number : Str
  display_number : Nat
  question : Str
  options : List (Str × Str)
  answer : Option Str
  difficulty : Str
  topic : Str
  qtype : Str
  explanation : Expl
  related_concepts : List Str
deriving DecidableEq

/-- Composite record id `f"{unique_id}_{idx}"`. -/
def mkQuestionId (uid idx : Nat) : Str := toDec uid ++ '_' :: toDec idx

/-- Model of Python `str.upper()` on the ASCII range. -/
def pyUpper (t : Str) : Str := t.map Char.toUpper

/-- The four choice letters tested by `q.get("answer", "").upper() in ["A", "B", "C", "D"]`. -/
def choiceLetters : List Str := [strChars "A", strChars "B", strChars "C", strChars "D"]

/-- The placeholder option set `{"A": "-", "B": "-", "C": "-", "D": "-"}`. -/
def placeholderOptions : List (Str × Str) :=
  [(strChars "A", strChars "-"), (strChars "B", strChars "-"),
   (strChars "C", strChars "-"), (strChars "D", strChars "-")]

/-- Metadata injection and validation for one extracted question
(src/app.py lines 323-354): sets difficulty, topic, type, the composite id
`{unique_id}_{idx}` and `display_number = idx`; for short-answer (단답형)
records forces `options = {}`, overwrites a choice-letter answer with the
sentinel `정답 생성 오류`, and forces `explanation.wrong = {}`; for other types
substitutes placeholder options when absent or empty. -/
def normalize_one_question (uid idx : Nat) (difficulty topic question_type : Str)
    (q : RawQ) : QuestionRecord :=
  if question_type = strChars "단답형" then
    { number := mkQuestionId uid idx
      display_number := idx
      question := q.question
      options := match q.options with
        | none => []
        | some opts => if opts ≠ [] then [] else opts
      answer := if pyUpper (q.answer.getD []) ∈ choiceLetters then
          some (strChars "정답 생성 오류")
        else q.answer
      difficulty := difficulty
      topic := topic
      qtype := question_type
      explanation := match q.explanation with
        | none => ⟨[], []⟩
        | some e => ⟨e.correct, []⟩
      related_concepts := q.related_concepts.getD [] }
  else
    { number := mkQuestionId uid idx
      display_number := idx
      question := q.question
      options := match q.options with
        | none => placeholderOptions
        | some opts => if opts = [] then placeholderOptions else opts
      answer := q.answer
      difficulty := difficulty
      topic := topic
      qtype := question_type
      explanation := q.explanation.getD ⟨[], []⟩
      related_concepts := q.related_concepts.getD [] }

/-- The `for idx, q in enumerate(js.get("questions", []), 1)` loop of
`rag_answer_chain`. -/
def rag_normalize_questions (uid : Nat) (difficulty topic question_type : Str) :
    Nat → List RawQ → List QuestionRecord
  | _, [] => []
  | idx, q :: qs =>
    normalize_one_question uid idx difficulty topic question_type q ::
      rag_normalize_questions uid difficulty topic question_type (idx + 1) qs

/-- The successful-extraction path of `rag_answer_chain`: normalize the
extracted questions with 1-based indices against a batch timestamp `uid`
(the code uses `int(time.time() * 1000)`, modelled as a parameter). -/
def rag_answer_chain_normalize (uid : Nat) (difficulty topic question_type : Str)
    (qs : List RawQ) : List QuestionRecord :=
  rag_normalize_questions uid difficulty topic question_type 1 qs

/-- Model of `create_error_question` (src/app.py lines 359-380). -/
def create_error_question (topic difficulty question_type : Str)
    (num_questions uid : Nat) : List QuestionRecord :=
  (List.range num_questions).map (fun k =>
    let i := k + 1
    { number := mkQuestionId uid i
      display_number := i
      question := strChars "문제 생성 오류 (" ++ toDec i ++ '/' :: toDec num_questions ++ [')']
      options := if question_type = strChars "단답형" then [] else placeholderOptions
      answer := some (if question_type = strChars "단답형" then strChars "오류"
        else strChars "A")
      difficulty := difficulty
      topic := topic
      qtype := question_type
      explanation := ⟨strChars "JSON 파싱 오류",
        if question_type = strChars "단답형" then [] else placeholderOptions⟩
      related_concepts := [] })


/-- Characters that the backtracking region of `참고:\\s*[, ]*$` can explore:
whitespace or the `[, ]` class. -/
def wsOrCS (c : Char) : Bool := isPySpace c || (c = ',' || c = ' ')


/-! ### Theorems -/

theorem digitCh_toNat {d : Nat} (h : d < 10) : (digitCh d).toNat = 48 + d := by
  interval_cases d <;> decide

theorem isDigitCh_digitCh {d : Nat} (h : d < 10) : isDigitCh (digitCh d) = true := by
  interval_cases d <;> decide

/-- Characters failing a Boolean character predicate differ from those
satisfying it. -/
theorem ne_of_pred_true_false {p : Char → Bool} {c x : Char}
    (h : p c = true) (hx : p x = false) : c ≠ x := by
  intro he; rw [he, hx] at h; exact Bool.noConfusion h

theorem toDecF_eq : ∀ n f₁ f₂, n ≤ f₁ → n ≤ f₂ → toDecF f₁ n = toDecF f₂ n := by
  intro n
  induction n using Nat.strong_induction_on with
  | _ n ih =>
    intro f₁ f₂ h₁ h₂
    by_cases h10 : n < 10
    · cases f₁ <;> cases f₂ <;> simp [toDecF, h10]
    · have hpos : 0 < n := by omega
      obtain ⟨g₁, rfl⟩ : ∃ g, f₁ = g + 1 := ⟨f₁ - 1, by omega⟩
      obtain ⟨g₂, rfl⟩ : ∃ g, f₂ = g + 1 := ⟨f₂ - 1, by omega⟩
      have hd : n / 10 < n := Nat.div_lt_self hpos (by omega)
      simp only [toDecF, h10, if_false]
      rw [ih (n / 10) hd g₁ g₂ (by omega) (by omega)]

theorem toDec_small {n : Nat} (h : n < 10) : toDec n = [digitCh n] := by
  cases n <;> simp [toDec, toDecF, h]

theorem toDec_large {n : Nat} (h : 10 ≤ n) :
    toDec n = toDec (n / 10) ++ [digitCh (n % 10)] := by
  obtain ⟨m, rfl⟩ : ∃ m, n = m + 1 := ⟨n - 1, by omega⟩
  show toDecF (m + 1) (m + 1) = toDec ((m + 1) / 10) ++ [digitCh ((m + 1) % 10)]
  simp only [toDecF, Nat.not_lt.mpr h, if_false]
  rw [toDecF_eq ((m + 1) / 10) m ((m + 1) / 10)
    (by omega) (le_refl _)]
  rfl

theorem toDec_all_digits : ∀ n, ∀ c ∈ toDec n, isDigitCh c = true := by
  intro n
  induction n using Nat.strong_induction_on with
  | _ n ih =>
    intro c hc
    by_cases h10 : n < 10
    · rw [toDec_small h10] at hc
      simp at hc
      rw [hc]; exact isDigitCh_digitCh h10
    · rw [toDec_large (by omega)] at hc
      rcases List.mem_append.mp hc with h | h
      · exact ih (n / 10) (Nat.div_lt_self (by omega) (by omega)) c h
      · simp at h
        rw [h]; exact isDigitCh_digitCh (Nat.mod_lt _ (by omega))

theorem toDec_ne_nil (n : Nat) : toDec n ≠ [] := by
  by_cases h10 : n < 10
  · rw [toDec_small h10]; simp
  · rw [toDec_large (by omega)]; simp

theorem digitsToNat_append_digit (xs : Str) (c : Char) :
    digitsToNat (xs ++ [c]) = 10 * digitsToNat xs + (c.toNat - 48) := by
  simp [digitsToNat, List.foldl_append]
  omega

theorem digitsToNat_toDec : ∀ n, digitsToNat (toDec n) = n := by
  intro n
  induction n using Nat.strong_induction_on with
  | _ n ih =>
    by_cases h10 : n < 10
    · rw [toDec_small h10]
      have := digitCh_toNat h10
      simp [digitsToNat]
      omega
    · rw [toDec_large (by omega), digitsToNat_append_digit,
        ih (n / 10) (Nat.div_lt_self (by omega) (by omega)),
        digitCh_toNat (Nat.mod_lt _ (by omega))]
      omega

theorem scanF_eq_len {m : Str → Option (Str × Str)} (hm : Shrinking m) :
    ∀ f t, t.length ≤ f → scanF m f t = scanSub m t := by
  intro f
  induction f using Nat.strong_induction_on with
  | _ f ih =>
    intro t h
    match t with
    | [] => cases f <;> rfl
    | c :: cs =>
      obtain ⟨g, rfl⟩ : ∃ g, f = g + 1 := ⟨f - 1, by simp at h; omega⟩
      simp only [List.length_cons] at h
      show scanF m (g + 1) (c :: cs) = scanF m (cs.length + 1) (c :: cs)
      simp only [scanF]
      cases hmc : m (c :: cs) with
      | some pr =>
        obtain ⟨out, rest⟩ := pr
        have hr := hm c cs out rest hmc
        dsimp only
        rw [ih g (by omega) rest (by omega),
           ih cs.length (by omega) rest (by omega)]
      | none =>
        dsimp only
        rw [ih g (by omega) cs (by omega),
           ih cs.length (by omega) cs (le_refl _)]

theorem scanSub_nil (m : Str → Option (Str × Str)) : scanSub m [] = [] := rfl

theorem scanSub_cons_none {m : Str → Option (Str × Str)} (hm : Shrinking m)
    {c : Char} {cs : Str} (h : m (c :: cs) = none) :
    scanSub m (c :: cs) = c :: scanSub m cs := by
  show scanF m (cs.length + 1) (c :: cs) = c :: scanSub m cs
  simp only [scanF, h]
  rw [scanF_eq_len hm cs.length cs (le_refl _)]

theorem scanSub_cons_some {m : Str → Option (Str × Str)} (hm : Shrinking m)
    {c : Char} {cs out rest : Str} (h : m (c :: cs) = some (out, rest)) :
    scanSub m (c :: cs) = out ++ scanSub m rest := by
  show scanF m (cs.length + 1) (c :: cs) = out ++ scanSub m rest
  simp only [scanF, h]
  rw [scanF_eq_len hm cs.length rest (hm c cs out rest h)]

/-- Scanning passes unchanged over a prefix in which the matcher cannot fire;
`htrig` states that the matcher only fires on a head character satisfying `p`. -/
theorem scanSub_append_of_no_trigger {m : Str → Option (Str × Str)}
    (hm : Shrinking m) {p : Char → Bool}
    (htrig : ∀ c cs, p c = false → m (c :: cs) = none) :
    ∀ {s : Str}, (∀ c ∈ s, p c = false) → ∀ r, scanSub m (s ++ r) = s ++ scanSub m r := by
  intro s
  induction s with
  | nil => intro _ r; rfl
  | cons c cs ih =>
    intro hs r
    have hc : p c = false := hs c (List.mem_cons_self c cs)
    rw [List.cons_append, scanSub_cons_none hm (htrig c (cs ++ r) hc),
      ih (fun x hx => hs x (List.mem_cons_of_mem c hx)) r]
    simp

theorem scanSub_id_of_no_trigger {m : Str → Option (Str × Str)}
    (hm : Shrinking m) {p : Char → Bool}
    (htrig : ∀ c cs, p c = false → m (c :: cs) = none)
    {t : Str} (ht : ∀ c ∈ t, p c = false) : scanSub m t = t := by
  have h := scanSub_append_of_no_trigger hm htrig ht []
  rw [scanSub_nil] at h
  simpa using h

/-! ### Lemmas about the three matchers -/

theorem takeWhile_append_all {p : Char → Bool} :
    ∀ (xs : Str) (y : Char) (r : Str), (∀ c ∈ xs, p c = true) → p y = false →
      (xs ++ y :: r).takeWhile p = xs := by
  intro xs
  induction xs with
  | nil =>
    intro y r _ hy
    simp [List.takeWhile_cons, hy]
  | cons a as ih =>
    intro y r hall hy
    have ha : p a = true := hall a (by simp)
    simp only [List.cons_append, List.takeWhile_cons, ha, if_true]
    rw [ih y r (fun c hc => hall c (by simp [hc])) hy]

theorem digit_not_space {c : Char} (h : isDigitCh c = true) : isPySpace c = false := by
  cases hch : isPySpace c
  · rfl
  · exfalso
    simp only [isPySpace, Bool.or_eq_true, decide_eq_true_eq] at hch
    rcases hch with ((((rfl | rfl) | rfl) | rfl) | rfl) | rfl <;> exact absurd h (by decide)

theorem remMatcher_shrinking (cnt : Nat) : Shrinking (remMatcher cnt) := by
  intro c cs out rest h
  simp only [remMatcher] at h
  split at h
  · split at h
    · exact absurd h (by simp)
    · split at h
      · rw [Option.some.injEq, Prod.mk.injEq] at h
        have : rest = (cs.drop (cs.takeWhile isDigitCh).length).tail := h.2.symm
        rw [this]
        simp
      · exact absurd h (by simp)
  · exact absurd h (by simp)

theorem remMatcher_not_lbracket {cnt : Nat} {c : Char} {cs : Str}
    (h : (c == '[') = false) : remMatcher cnt (c :: cs) = none := by
  have hc : c ≠ '[' := by simpa using h
  simp [remMatcher, hc]

theorem remMatcher_marker (cnt n : Nat) (rest : Str) :
    remMatcher cnt ('[' :: (toDec n ++ ']' :: rest)) =
      some ((if cnt < n then [] else '[' :: toDec n ++ [']']), rest) := by
  have hds : (toDec n ++ ']' :: rest).takeWhile isDigitCh = toDec n :=
    takeWhile_append_all _ _ _ (toDec_all_digits n) (by decide)
  have hdrop : (toDec n ++ ']' :: rest).drop (toDec n).length = ']' :: rest :=
    List.drop_left _ _
  simp [remMatcher, hds, hdrop, toDec_ne_nil, digitsToNat_toDec]

theorem normMatcherTail_some_length : ∀ (cs out rest : Str),
    normMatcherTail cs = some (out, rest) → rest.length ≤ cs.length := by
  intro cs out rest h
  match cs with
  | [] => exact absurd h (by simp [normMatcherTail])
  | [i] => exact absurd h (by simp [normMatcherTail])
  | [i, d] => exact absurd h (by simp [normMatcherTail])
  | i :: d :: e :: r0 =>
    simp only [normMatcherTail] at h
    split at h
    · split at h
      · exact absurd h (by simp)
      · split at h
        · rw [Option.some.injEq, Prod.mk.injEq] at h
          have : rest = (((r0.drop (r0.takeWhile isPySpace).length).drop
              ((r0.drop (r0.takeWhile isPySpace).length).takeWhile isDigitCh).length)).tail :=
            h.2.symm
          rw [this]
          simp
          omega
        · exact absurd h (by simp)
    · exact absurd h (by simp)

theorem normMatcher_shrinking : Shrinking normMatcher := by
  intro c cs out rest h
  simp only [normMatcher] at h
  split at h
  · exact normMatcherTail_some_length cs out rest h
  · exact absurd h (by simp)

theorem normMatcher_not_lbracket {c : Char} {cs : Str}
    (h : (c == '[') = false) : normMatcher (c :: cs) = none := by
  have hc : c ≠ '[' := by simpa using h
  simp [normMatcher, hc]

theorem normMatcher_plain_marker (n : Nat) (r : Str) :
    normMatcher ('[' :: (toDec n ++ ']' :: r)) = none := by
  obtain ⟨a, as, ha⟩ : ∃ a as, toDec n = a :: as := by
    cases h : toDec n with
    | nil => exact absurd h (toDec_ne_nil n)
    | cons a as => exact ⟨a, as, rfl⟩
  have hd : isDigitCh a = true := toDec_all_digits n a (by rw [ha]; simp)
  have hai : a ≠ 'I' := ne_of_pred_true_false hd (by decide)
  have hai2 : a ≠ 'i' := ne_of_pred_true_false hd (by decide)
  rw [ha]
  simp only [normMatcher, List.cons_append, if_pos rfl]
  cases hbs : as ++ ']' :: r with
  | nil => simp [normMatcherTail]
  | cons b bs =>
    cases bs with
    | nil => simp [normMatcherTail]
    | cons e rest1 => simp [normMatcherTail, hai, hai2]

theorem normMatcher_id_marker (n : Nat) (r : Str) :
    normMatcher ('[' :: ('I' :: 'D' :: ':' :: ' ' :: (toDec n ++ ']' :: r))) =
      some ('[' :: toDec n ++ [']'], r) := by
  obtain ⟨a, as, ha⟩ : ∃ a as, toDec n = a :: as := by
    cases h : toDec n with
    | nil => exact absurd h (toDec_ne_nil n)
    | cons a as => exact ⟨a, as, rfl⟩
  have hd : isDigitCh a = true := toDec_all_digits n a (by rw [ha]; simp)
  have hsp : (' ' :: (toDec n ++ ']' :: r)).takeWhile isPySpace = [' '] := by
    rw [ha]
    have : (' ' :: (a :: as ++ ']' :: r)) = [' '] ++ a :: (as ++ ']' :: r) := by simp
    rw [this]
    exact takeWhile_append_all [' '] a _
      (by intro c hc; simp at hc; rw [hc]; decide) (digit_not_space hd)
  have hds : (toDec n ++ ']' :: r).takeWhile isDigitCh = toDec n :=
    takeWhile_append_all _ _ _ (toDec_all_digits n) (by decide)
  have hdrop : (toDec n ++ ']' :: r).drop (toDec n).length = ']' :: r :=
    List.drop_left _ _
  simp [normMatcher, normMatcherTail, hsp, hds, hdrop, toDec_ne_nil]

theorem giboMatcher_shrinking : Shrinking giboMatcher := by
  intro c cs out rest h
  match c, cs with
  | c, [] => exact absurd h (by simp [giboMatcher])
  | c, [d] => exact absurd h (by simp [giboMatcher])
  | c, d :: e :: r0 =>
    simp only [giboMatcher] at h
    split at h
    · cases hsp : spCsEol r0 with
      | some m =>
        rw [hsp] at h
        rw [Option.some.injEq, Prod.mk.injEq] at h
        have : rest = r0.drop m := h.2.symm
        rw [this]
        simp
        omega
      | none => rw [hsp] at h; exact absurd h (by simp)
    · exact absurd h (by simp)

theorem giboMatcher_not_cham {c : Char} {cs : Str}
    (h : (c == '참') = false) : giboMatcher (c :: cs) = none := by
  have hc : c ≠ '참' := by simpa using h
  match cs with
  | [] => rfl
  | [d] => rfl
  | d :: e :: r0 => simp [giboMatcher, hc]

theorem toDec_no_lbracket (n : Nat) : ∀ c ∈ toDec n, (c == '[') = false := by
  intro c hc
  simpa using ne_of_pred_true_false (toDec_all_digits n c hc)
    (show isDigitCh '[' = false by decide)

theorem normalize_step_plain (n : Nat) (rest : Str) :
    scanSub normMatcher ('[' :: (toDec n ++ (']' :: rest))) =
      '[' :: (toDec n ++ (']' :: scanSub normMatcher rest)) := by
  rw [scanSub_cons_none normMatcher_shrinking (normMatcher_plain_marker n rest)]
  rw [scanSub_append_of_no_trigger normMatcher_shrinking
    (fun c cs h => normMatcher_not_lbracket h) (toDec_no_lbracket n) (']' :: rest)]
  rw [scanSub_cons_none normMatcher_shrinking (normMatcher_not_lbracket (by decide))]

theorem normalize_step_id (n : Nat) (rest : Str) :
    scanSub normMatcher ('[' :: ('I' :: 'D' :: ':' :: ' ' :: (toDec n ++ (']' :: rest)))) =
      ('[' :: (toDec n ++ [']'])) ++ scanSub normMatcher rest := by
  have h := normMatcher_id_marker n rest
  exact scanSub_cons_some normMatcher_shrinking h

theorem rem_step_marker (cnt n : Nat) (rest : Str) :
    scanSub (remMatcher cnt) ('[' :: (toDec n ++ (']' :: rest))) =
      (if cnt < n then [] else '[' :: (toDec n ++ [']'])) ++
        scanSub (remMatcher cnt) rest := by
  have h := remMatcher_marker cnt n rest
  exact scanSub_cons_some (remMatcher_shrinking cnt) h

theorem normalize_renderDoc : ∀ (ps : List Piece) (tl : Str),
    (∀ p ∈ ps, ∀ c ∈ p.seg, c ≠ '[') → (∀ c ∈ tl, c ≠ '[') →
    normalize_references (renderDoc ps tl) = renderNormalized ps tl := by
  intro ps
  induction ps with
  | nil =>
    intro tl _ htl
    exact scanSub_id_of_no_trigger normMatcher_shrinking
      (fun c cs h => normMatcher_not_lbracket h)
      (fun c hc => by simpa using htl c hc)
  | cons p ps ih =>
    intro tl hseg htl
    have hpseg : ∀ c ∈ p.seg, (c == '[') = false :=
      fun c hc => by simpa using hseg p (by simp) c hc
    have hps : ∀ q ∈ ps, ∀ c ∈ q.seg, c ≠ '[' :=
      fun q hq => hseg q (by simp [hq])
    show scanSub normMatcher (p.seg ++ (renderMarker p.num p.form ++ renderDoc ps tl)) = _
    rw [scanSub_append_of_no_trigger normMatcher_shrinking
      (fun c cs h => normMatcher_not_lbracket h) hpseg]
    have ihx : scanSub normMatcher (renderDoc ps tl) = renderNormalized ps tl :=
      ih tl hps htl
    cases hf : p.form with
    | plain =>
      have : renderMarker p.num .plain ++ renderDoc ps tl =
          '[' :: (toDec p.num ++ (']' :: renderDoc ps tl)) := by
        simp [renderMarker]
      rw [this, normalize_step_plain, ihx]
      simp [renderNormalized]
    | idform =>
      have : renderMarker p.num .idform ++ renderDoc ps tl =
          '[' :: ('I' :: 'D' :: ':' :: ' ' :: (toDec p.num ++ (']' :: renderDoc ps tl))) := by
        simp [renderMarker]
      rw [this, normalize_step_id, ihx]
      simp [renderNormalized]

theorem dropInvalid_renderNormalized : ∀ (ps : List Piece) (tl : Str) (cnt : Nat),
    (∀ p ∈ ps, ∀ c ∈ p.seg, c ≠ '[') → (∀ c ∈ tl, c ≠ '[') →
    dropInvalidMarkers cnt (renderNormalized ps tl) = renderCleaned cnt ps tl := by
  intro ps
  induction ps with
  | nil =>
    intro tl cnt _ htl
    exact scanSub_id_of_no_trigger (remMatcher_shrinking cnt)
      (fun c cs h => remMatcher_not_lbracket h)
      (fun c hc => by simpa using htl c hc)
  | cons p ps ih =>
    intro tl cnt hseg htl
    have hpseg : ∀ c ∈ p.seg, (c == '[') = false :=
      fun c hc => by simpa using hseg p (by simp) c hc
    have hps : ∀ q ∈ ps, ∀ c ∈ q.seg, c ≠ '[' :=
      fun q hq => hseg q (by simp [hq])
    show scanSub (remMatcher cnt)
      (p.seg ++ (('[' :: (toDec p.num ++ [']'])) ++ renderNormalized ps tl)) = _
    rw [scanSub_append_of_no_trigger (remMatcher_shrinking cnt)
      (fun c cs h => remMatcher_not_lbracket h) hpseg]
    have ihx : scanSub (remMatcher cnt) (renderNormalized ps tl) = renderCleaned cnt ps tl :=
      ih tl cnt hps htl
    have : ('[' :: (toDec p.num ++ [']'])) ++ renderNormalized ps tl =
        '[' :: (toDec p.num ++ (']' :: renderNormalized ps tl)) := by
      simp
    rw [this, rem_step_marker, ihx]
    simp [renderCleaned]

theorem renderCleaned_no_cham (cnt : Nat) : ∀ (ps : List Piece) (tl : Str),
    (∀ p ∈ ps, ∀ c ∈ p.seg, c ≠ '참') → (∀ c ∈ tl, c ≠ '참') →
    ∀ c ∈ renderCleaned cnt ps tl, (c == '참') = false := by
  intro ps
  induction ps with
  | nil => intro tl _ htl c hc; simpa using htl c hc
  | cons p ps ih =>
    intro tl hseg htl c hc
    simp only [renderCleaned, List.mem_append] at hc
    rcases hc with hc | hc | hc
    · simpa using hseg p (by simp) c hc
    · by_cases hlt : cnt < p.num
      · rw [if_pos hlt] at hc; simp at hc
      · rw [if_neg hlt] at hc
        simp only [List.mem_cons, List.mem_append] at hc
        rcases hc with rfl | hc | hc
        · decide
        · simpa using ne_of_pred_true_false (toDec_all_digits p.num c hc)
            (show isDigitCh '참' = false by decide)
        · simp at hc; rw [hc]; decide
    · exact ih tl (fun q hq => hseg q (by simp [hq])) htl c hc

theorem clean_inert_id (t : Str) (cnt : Nat)
    (h1 : ∀ c ∈ t, c ≠ '[') (h2 : ∀ c ∈ t, c ≠ '참') :
    clean_hallucinated_references t cnt = t := by
  have e1 : normalize_references t = t :=
    scanSub_id_of_no_trigger normMatcher_shrinking
      (fun c cs h => normMatcher_not_lbracket h) (fun c hc => by simpa using h1 c hc)
  have e2 : dropInvalidMarkers cnt t = t :=
    scanSub_id_of_no_trigger (remMatcher_shrinking cnt)
      (fun c cs h => remMatcher_not_lbracket h) (fun c hc => by simpa using h1 c hc)
  have e3 : fixEmptyRefLine t = t :=
    scanSub_id_of_no_trigger giboMatcher_shrinking
      (fun c cs h => giboMatcher_not_cham h) (fun c hc => by simpa using h2 c hc)
  unfold clean_hallucinated_references
  rw [e1, e2, e3]

/-- C1, counterexample: the claim says `clean` deletes every marker `[N]` with
`N` outside `[1, valid_count]`, including `N = 0`; but the code only tests
`N > max_doc_count`, so the out-of-range marker `[0]` is kept verbatim:
`clean("[0]", 3) = "[0]" ≠ ""`. -/
theorem C1_counterexample :
    clean_hallucinated_references (strChars "[0]") 3 = strChars "[0]" ∧
    clean_hallucinated_references (strChars "[0]") 3 ≠ [] := by
  constructor
  · decide
  · decide

/-- C1, amended: on every marker-structured text (marker-free segments do not
contain `[` or `참`), `clean_hallucinated_references` normalizes every
`[ID: N]` marker to `[N]`, deletes every normalized marker `[N]` with
`N > valid_count`, and keeps every marker with `N ≤ valid_count` in place —
including `[0]`; in particular `clean("See [1] and [5].", 3) = "See [1] and ."`. -/
theorem C1_marker_filter (ps : List Piece) (tl : Str) (cnt : Nat)
    (hseg : ∀ p ∈ ps, ∀ c ∈ p.seg, c ≠ '[' ∧ c ≠ '참')
    (htl : ∀ c ∈ tl, c ≠ '[' ∧ c ≠ '참') :
    clean_hallucinated_references (renderDoc ps tl) cnt = renderCleaned cnt ps tl := by
  have h1 := normalize_renderDoc ps tl
    (fun p hp c hc => (hseg p hp c hc).1) (fun c hc => (htl c hc).1)
  have h2 := dropInvalid_renderNormalized ps tl cnt
    (fun p hp c hc => (hseg p hp c hc).1) (fun c hc => (htl c hc).1)
  have h3 : fixEmptyRefLine (renderCleaned cnt ps tl) = renderCleaned cnt ps tl :=
    scanSub_id_of_no_trigger giboMatcher_shrinking
      (fun c cs h => giboMatcher_not_cham h)
      (renderCleaned_no_cham cnt ps tl
        (fun p hp c hc => (hseg p hp c hc).2) (fun c hc => (htl c hc).2))
  unfold clean_hallucinated_references
  rw [h1, h2, h3]

/-- C1, witness: the amended theorem applied to the text
`"See [1] and [5]."` with `valid_count = 3` reproduces the spec example. -/
theorem C1_witness :
    clean_hallucinated_references (strChars "See [1] and [5].") 3 =
      strChars "See [1] and ." := by
  have h := C1_marker_filter
    [⟨strChars "See ", 1, .plain⟩, ⟨strChars " and ", 5, .plain⟩] (strChars ".") 3
    (by decide) (by decide)
  have e1 : renderDoc
      [⟨strChars "See ", 1, .plain⟩, ⟨strChars " and ", 5, .plain⟩] (strChars ".") =
      strChars "See [1] and [5]." := by decide
  have e2 : renderCleaned 3
      [⟨strChars "See ", 1, .plain⟩, ⟨strChars " and ", 5, .plain⟩] (strChars ".") =
      strChars "See [1] and ." := by decide
  rw [e1, e2] at h
  exact h

/-- C9, counterexample: `clean` is not idempotent.  Deleting the out-of-range
inner marker of `"[[1]1]"` (with `valid_count = 0`) produces the fresh marker
`"[1]"`, which a second application of `clean` deletes:
`clean(clean("[[1]1]", 0), 0) = "" ≠ "[1]" = clean("[[1]1]", 0)`. -/
theorem C9_counterexample :
    clean_hallucinated_references (clean_hallucinated_references (strChars "[[1]1]") 0) 0 ≠
      clean_hallucinated_references (strChars "[[1]1]") 0 := by decide

/-! ### Insertion-sort lemmas for the stable descending sort -/

theorem insertDesc_perm (x : MergedDoc) : ∀ l, (insertDesc x l).Perm (x :: l) := by
  intro l
  induction l with
  | nil => exact List.Perm.refl _
  | cons y ys ih =>
    by_cases h : y.score < x.score
    · simp [insertDesc, h]
    · simp only [insertDesc, if_neg h]
      exact (ih.cons y).trans (List.Perm.swap x y ys)

theorem insertDesc_sorted (x : MergedDoc) :
    ∀ l, l.Pairwise (fun a b => b.score ≤ a.score) →
    (insertDesc x l).Pairwise (fun a b => b.score ≤ a.score) := by
  intro l
  induction l with
  | nil => intro _; simp [insertDesc]
  | cons y ys ih =>
    intro hp
    rcases List.pairwise_cons.mp hp with ⟨hy, hys⟩
    by_cases h : y.score < x.score
    · simp only [insertDesc, if_pos h]
      refine List.pairwise_cons.mpr ⟨?_, hp⟩
      intro z hz
      rcases List.mem_cons.mp hz with rfl | hz
      · exact le_of_lt h
      · exact le_trans (hy z hz) (le_of_lt h)
    · simp only [insertDesc, if_neg h]
      refine List.pairwise_cons.mpr ⟨?_, ih hys⟩
      intro z hz
      have hz2 := (insertDesc_perm x ys).mem_iff.mp hz
      rcases List.mem_cons.mp hz2 with rfl | hz3
      · exact not_lt.mp h
      · exact hy z hz3

theorem insertDesc_filter_ne (x : MergedDoc) (q : ℚ) (hx : x.score ≠ q) :
    ∀ l, (insertDesc x l).filter (fun d => decide (d.score = q)) =
      l.filter (fun d => decide (d.score = q)) := by
  intro l
  induction l with
  | nil => simp [insertDesc, hx]
  | cons y ys ih =>
    by_cases h : y.score < x.score
    · simp [insertDesc, h, List.filter_cons, hx]
    · simp only [insertDesc, if_neg h, List.filter_cons]
      rw [ih]

theorem insertDesc_filter_eq (x : MergedDoc) (q : ℚ) (hx : x.score = q) :
    ∀ l, l.Pairwise (fun a b => b.score ≤ a.score) →
    (insertDesc x l).filter (fun d => decide (d.score = q)) =
      l.filter (fun d => decide (d.score = q)) ++ [x] := by
  intro l
  induction l with
  | nil => simp [insertDesc, hx]
  | cons y ys ih =>
    intro hp
    rcases List.pairwise_cons.mp hp with ⟨hy, hys⟩
    by_cases h : y.score < x.score
    · have hnil : (y :: ys).filter (fun d => decide (d.score = q)) = [] := by
        rw [List.filter_eq_nil_iff]
        intro z hz
        have hzle : z.score ≤ y.score := by
          rcases List.mem_cons.mp hz with rfl | hz2
          · exact le_refl _
          · exact hy z hz2
        have : z.score < q := lt_of_le_of_lt hzle (hx ▸ h)
        simp [ne_of_lt this]
      simp only [insertDesc, if_pos h]
      rw [List.filter_cons_of_pos (by simp [hx]), hnil]
      simp
    · simp only [insertDesc, if_neg h]
      by_cases hyq : y.score = q
      · rw [List.filter_cons_of_pos (by simp [hyq]),
          List.filter_cons_of_pos (by simp [hyq]), ih hys]
        simp
      · rw [List.filter_cons_of_neg (by simp [hyq]),
          List.filter_cons_of_neg (by simp [hyq]), ih hys]

theorem foldl_insertDesc_spec :
    ∀ (l acc : List MergedDoc), acc.Pairwise (fun a b => b.score ≤ a.score) →
    (l.foldl (fun a x => insertDesc x a) acc).Pairwise (fun a b => b.score ≤ a.score) ∧
    (l.foldl (fun a x => insertDesc x a) acc).Perm (acc ++ l) ∧
    (∀ q : ℚ, (l.foldl (fun a x => insertDesc x a) acc).filter
        (fun d => decide (d.score = q)) =
      acc.filter (fun d => decide (d.score = q)) ++
        l.filter (fun d => decide (d.score = q))) := by
  intro l
  induction l with
  | nil => intro acc h; exact ⟨h, by simp, by simp⟩
  | cons x xs ih =>
    intro acc h
    have hins := insertDesc_sorted x acc h
    obtain ⟨s1, s2, s3⟩ := ih (insertDesc x acc) hins
    refine ⟨s1, ?_, ?_⟩
    · refine s2.trans ?_
      refine (((insertDesc_perm x acc).append_right xs).trans ?_)
      have : (x :: acc) ++ xs = x :: (acc ++ xs) := by simp
      rw [this]
      exact List.perm_middle.symm
    · intro q
      simp only [List.foldl_cons]
      rw [s3 q]
      by_cases hx : x.score = q
      · rw [insertDesc_filter_eq x q hx acc h,
          List.filter_cons_of_pos (by simp [hx])]
        simp
      · rw [insertDesc_filter_ne x q hx acc,
          List.filter_cons_of_neg (by simp [hx])]

theorem sortByScoreDesc_spec (l : List MergedDoc) :
    (sortByScoreDesc l).Pairwise (fun a b => b.score ≤ a.score) ∧
    (sortByScoreDesc l).Perm l ∧
    (∀ q : ℚ, (sortByScoreDesc l).filter (fun d => decide (d.score = q)) =
      l.filter (fun d => decide (d.score = q))) := by
  obtain ⟨s1, s2, s3⟩ := foldl_insertDesc_spec l [] (by simp)
  refine ⟨s1, by simpa using s2, fun q => by simpa using s3 q⟩

/-! ### Grouping characterization -/

theorem addChunk_of_new_source (c : Chunk) :
    ∀ G : List SourceGroup, (∀ g ∈ G, g.source ≠ c.source) →
    addChunk G c = G ++ [⟨[c.text], [c.score], c.source⟩] := by
  intro G
  induction G with
  | nil => intro _; rfl
  | cons g gs ih =>
    intro h
    have hg : g.source ≠ c.source := h g (by simp)
    simp only [addChunk, if_neg hg]
    rw [ih (fun g' hg' => h g' (by simp [hg']))]
    simp

theorem addChunk_of_seen_source (c : Chunk) :
    ∀ (l1 : List SourceGroup) (g0 : SourceGroup) (l2 : List SourceGroup),
    (∀ g ∈ l1, g.source ≠ c.source) → g0.source = c.source →
    addChunk (l1 ++ g0 :: l2) c =
      l1 ++ ⟨g0.texts ++ [c.text], g0.scores ++ [c.score], g0.source⟩ :: l2 := by
  intro l1
  induction l1 with
  | nil =>
    intro g0 l2 _ h0
    simp [addChunk, h0]
  | cons a l1 ih =>
    intro g0 l2 h1 h0
    have ha : a.source ≠ c.source := h1 a (by simp)
    simp only [List.cons_append, addChunk, if_neg ha, List.append_eq]
    rw [ih g0 l2 (fun g hg => h1 g (by simp [hg])) h0]

theorem exists_first_source :
    ∀ (G : List SourceGroup) (s : String), (∃ g ∈ G, g.source = s) →
    ∃ l1 g0 l2, G = l1 ++ g0 :: l2 ∧ g0.source = s ∧ ∀ g ∈ l1, g.source ≠ s := by
  intro G
  induction G with
  | nil => intro s h; simp at h
  | cons g gs ih =>
    intro s h
    by_cases hg : g.source = s
    · exact ⟨[], g, gs, by simp, hg, by simp⟩
    · have hex : ∃ g' ∈ gs, g'.source = s := by
        rcases h with ⟨g', hg', hs⟩
        rcases List.mem_cons.mp hg' with rfl | hmem
        · exact absurd hs hg
        · exact ⟨g', hmem, hs⟩
      obtain ⟨l1, g0, l2, heq, hs0, hl1⟩ := ih s hex
      refine ⟨g :: l1, g0, l2, by simp [heq], hs0, ?_⟩
      intro g' hg'
      rcases List.mem_cons.mp hg' with rfl | hm
      · exact hg
      · exact hl1 g' hm

theorem groupChunks_characterization : ∀ cs : List Chunk,
    (∀ g ∈ groupChunks cs,
      g.texts = (cs.filter (fun ch => ch.source == g.source)).map Chunk.text ∧
      g.scores = (cs.filter (fun ch => ch.source == g.source)).map Chunk.score) ∧
    ((groupChunks cs).map SourceGroup.source).Nodup ∧
    (∀ s : String, (∃ g ∈ groupChunks cs, g.source = s) ↔ ∃ ch ∈ cs, ch.source = s) := by
  intro cs
  induction cs using List.reverseRecOn with
  | nil => exact ⟨by simp [groupChunks], by simp [groupChunks], by simp [groupChunks]⟩
  | append_singleton cs c ih =>
    obtain ⟨h1, h2, h3⟩ := ih
    have hgc : groupChunks (cs ++ [c]) = addChunk (groupChunks cs) c := by
      simp [groupChunks, List.foldl_append]
    by_cases hmem : ∃ g ∈ groupChunks cs, g.source = c.source
    · obtain ⟨l1, g0, l2, heq, hs0, hl1⟩ := exists_first_source _ _ hmem
      have hadd : groupChunks (cs ++ [c]) =
          l1 ++ ⟨g0.texts ++ [c.text], g0.scores ++ [c.score], g0.source⟩ :: l2 := by
        rw [hgc, heq]
        exact addChunk_of_seen_source c l1 g0 l2 (fun g hg hs => hl1 g hg hs) hs0
      have hg0mem : g0 ∈ groupChunks cs := by rw [heq]; simp
      have hnd2 : g0.source ∉ (l2.map SourceGroup.source) := by
        rw [heq] at h2
        simp only [List.map_append, List.map_cons] at h2
        have := (List.nodup_append.mp h2).2.1
        exact (List.nodup_cons.mp this).1
      refine ⟨?_, ?_, ?_⟩
      · intro g hg
        rw [hadd] at hg
        rw [List.filter_append]
        rcases List.mem_append.mp hg with hgl1 | hgl2
        · have hgs : g.source ≠ c.source := hl1 g hgl1
          have hgmem : g ∈ groupChunks cs := by rw [heq]; simp [hgl1]
          have hfil : List.filter (fun ch => ch.source == g.source) [c] = [] := by
            simp [Ne.symm hgs]
          simp only [List.filter_append, hfil, List.append_nil]
          exact h1 g hgmem
        · rcases List.mem_cons.mp hgl2 with rfl | hgl2'
          · have hup := h1 g0 hg0mem
            constructor
            · show g0.texts ++ [c.text] = _
              rw [hup.1]
              have : (c.source == g0.source) = true := by simp [hs0]
              simp [List.filter_cons, this, hs0]
            · show g0.scores ++ [c.score] = _
              rw [hup.2]
              have : (c.source == g0.source) = true := by simp [hs0]
              simp [List.filter_cons, this, hs0]
          · have hgmem : g ∈ groupChunks cs := by rw [heq]; simp [hgl2']
            have hgs : g.source ≠ c.source := by
              intro hcon
              apply hnd2
              rw [hs0, ← hcon]
              exact List.mem_map_of_mem SourceGroup.source hgl2'
            have hfil : List.filter (fun ch => ch.source == g.source) [c] = [] := by
              simp [Ne.symm hgs]
            simp only [List.filter_append, hfil, List.append_nil]
            exact h1 g hgmem
      · rw [hadd]
        rw [heq] at h2
        simpa using h2
      · intro s
        rw [hadd]
        rw [heq] at h3
        constructor
        · intro ⟨g, hg, hs⟩
          rcases List.mem_append.mp hg with hgl1 | hgl2
          · obtain ⟨ch, hch, hchs⟩ := (h3 s).mp ⟨g, by simp [hgl1], hs⟩
            exact ⟨ch, by simp [hch], hchs⟩
          · rcases List.mem_cons.mp hgl2 with rfl | hgl2'
            · exact ⟨c, by simp, by rw [← hs]; exact hs0.symm ▸ rfl⟩
            · obtain ⟨ch, hch, hchs⟩ := (h3 s).mp ⟨g, by simp [hgl2'], hs⟩
              exact ⟨ch, by simp [hch], hchs⟩
        · intro ⟨ch, hch, hchs⟩
          rcases List.mem_append.mp hch with hch' | hch'
          · obtain ⟨g, hg, hs⟩ := (h3 s).mpr ⟨ch, hch', hchs⟩
            rcases List.mem_append.mp hg with hgl1 | hgl2
            · exact ⟨g, by simp [hgl1], hs⟩
            · rcases List.mem_cons.mp hgl2 with rfl | hgl2'
              · exact ⟨⟨g.texts ++ [c.text], g.scores ++ [c.score], g.source⟩,
                  by simp, hs⟩
              · exact ⟨g, by simp [hgl2'], hs⟩
          · have : ch = c := by simpa using hch'
            subst this
            exact ⟨⟨g0.texts ++ [ch.text], g0.scores ++ [ch.score], g0.source⟩,
              by simp, by rw [show (⟨g0.texts ++ [ch.text], g0.scores ++ [ch.score],
                g0.source⟩ : SourceGroup).source = g0.source from rfl, hs0, hchs]⟩
    · push_neg at hmem
      have hadd : groupChunks (cs ++ [c]) =
          groupChunks cs ++ [⟨[c.text], [c.score], c.source⟩] := by
        rw [hgc]
        exact addChunk_of_new_source c _ hmem
      have hnochunk : ∀ ch ∈ cs, ch.source ≠ c.source := by
        intro ch hch hcon
        obtain ⟨g, hg, hs⟩ := (h3 c.source).mpr ⟨ch, hch, hcon⟩
        exact hmem g hg hs
      refine ⟨?_, ?_, ?_⟩
      · intro g hg
        rw [hadd] at hg
        rcases List.mem_append.mp hg with hgold | hgnew
        · have hgs : g.source ≠ c.source := hmem g hgold
          have hfil : List.filter (fun ch => ch.source == g.source) [c] = [] := by
            simp [Ne.symm hgs]
          simp only [List.filter_append, hfil, List.append_nil]
          exact h1 g hgold
        · have : g = ⟨[c.text], [c.score], c.source⟩ := by simpa using hgnew
          subst this
          have hfilnil : cs.filter (fun ch => ch.source == c.source) = [] := by
            rw [List.filter_eq_nil_iff]
            intro ch hch
            simp [hnochunk ch hch]
          constructor
          · show [c.text] = _
            simp [List.filter_append, List.filter_cons, hfilnil]
          · show [c.score] = _
            simp [List.filter_append, List.filter_cons, hfilnil]
      · rw [hadd]
        rw [List.map_append, List.nodup_append]
        refine ⟨h2, by simp, ?_⟩
        intro s hs hs2
        obtain ⟨g, hg, hgs⟩ := List.mem_map.mp hs
        have : s = c.source := by simpa using hs2
        exact hmem g hg (by rw [hgs, this])
      · intro s
        rw [hadd]
        constructor
        · intro ⟨g, hg, hs⟩
          rcases List.mem_append.mp hg with hgold | hgnew
          · obtain ⟨ch, hch, hchs⟩ := (h3 s).mp ⟨g, hgold, hs⟩
            exact ⟨ch, by simp [hch], hchs⟩
          · have : g = ⟨[c.text], [c.score], c.source⟩ := by simpa using hgnew
            subst this
            exact ⟨c, by simp, hs⟩
        · intro ⟨ch, hch, hchs⟩
          rcases List.mem_append.mp hch with hch' | hch'
          · obtain ⟨g, hg, hs⟩ := (h3 s).mpr ⟨ch, hch', hchs⟩
            exact ⟨g, by simp [hg], hs⟩
          · have : ch = c := by simpa using hch'
            subst this
            exact ⟨⟨[ch.text], [ch.score], ch.source⟩, by simp, hchs⟩

theorem sum_ge_of_all_ge (t : ℚ) :
    ∀ l : List ℚ, (∀ x ∈ l, t ≤ x) → t * l.length ≤ l.sum := by
  intro l
  induction l with
  | nil => intro _; simp
  | cons x xs ih =>
    intro h
    have hx : t ≤ x := h x (by simp)
    have hxs := ih (fun y hy => h y (by simp [hy]))
    simp only [List.sum_cons, List.length_cons]
    push_cast
    linarith

theorem group_mean_pos (cs : List Chunk)
    (hthr : ∀ c ∈ cs, scoreThreshold ≤ c.score) {g : SourceGroup}
    (hg : g ∈ groupChunks cs) :
    0 < g.scores.length ∧ 0 < g.scores.sum / (g.scores.length : ℚ) := by
  obtain ⟨hchar, _, hmem⟩ := groupChunks_characterization cs
  obtain ⟨ch, hch, hchs⟩ := (hmem g.source).mp ⟨g, hg, rfl⟩
  have hfil : ch ∈ cs.filter (fun x => x.source == g.source) :=
    List.mem_filter.mpr ⟨hch, by simp [hchs]⟩
  have hscores := (hchar g hg).2
  have hlen : 0 < g.scores.length := by
    rw [hscores, List.length_map]
    exact List.length_pos.mpr (List.ne_nil_of_mem hfil)
  have hall : ∀ x ∈ g.scores, scoreThreshold ≤ x := by
    rw [hscores]
    intro x hx
    obtain ⟨ch', hch', rfl⟩ := List.mem_map.mp hx
    exact hthr ch' (List.mem_filter.mp hch').1
  have hsum := sum_ge_of_all_ge scoreThreshold g.scores hall
  have hlenQ : (0 : ℚ) < (g.scores.length : ℚ) := by exact_mod_cast hlen
  have hpos : 0 < g.scores.sum := by
    have ht : (0 : ℚ) < scoreThreshold * (g.scores.length : ℚ) := by
      have : (0 : ℚ) < scoreThreshold := by norm_num [scoreThreshold]
      positivity
    linarith
  exact ⟨hlen, div_pos hpos hlenQ⟩

/-- C2: the merge step of `search_knowledge_base` on a sequence of surviving
fragments: every source group collects exactly the texts and scores of its
source in original retrieval order; every merged document carries the composite
score `mean * (1 + (n - 1) * 0.25)` and the newline-concatenation of its group
texts; and the output is a permutation of the merged documents sorted by
non-increasing composite score, with every score class kept in first-seen group
order (the characterisation of Python's stable descending sort). -/
theorem C2_merge_step (cs : List Chunk) :
    (∀ g ∈ groupChunks cs,
      g.texts = (cs.filter (fun ch => ch.source == g.source)).map Chunk.text ∧
      g.scores = (cs.filter (fun ch => ch.source == g.source)).map Chunk.score) ∧
    mergedDocs cs = (groupChunks cs).map (fun g =>
      ⟨g.source,
       (g.scores.sum / (g.scores.length : ℚ)) *
         (1 + ((g.scores.length : ℚ) - 1) * (1 / 4)),
       List.intercalate ['\n'] g.texts⟩) ∧
    (searchMergeStep cs).Perm (mergedDocs cs) ∧
    (searchMergeStep cs).Pairwise (fun a b => b.score ≤ a.score) ∧
    (∀ q : ℚ, (searchMergeStep cs).filter (fun d => decide (d.score = q)) =
      (mergedDocs cs).filter (fun d => decide (d.score = q))) := by
  obtain ⟨hchar, _, _⟩ := groupChunks_characterization cs
  obtain ⟨s1, s2, s3⟩ := sortByScoreDesc_spec (mergedDocs cs)
  exact ⟨hchar, rfl, s2, s1, s3⟩

/-- C7: the composite score `composite m n = m * (1 + (n - 1) * 0.25)` is
monotonically non-decreasing in the mean `m` for fixed fragment count, and in
the fragment count for fixed non-negative mean; and for any two groups built
from surviving fragments (scores at or above the retrieval threshold) with
equal mean, the group with strictly more fragments has a strictly higher
composite score. -/
theorem C7_composite_monotone :
    (∀ (n : Nat) (m1 m2 : ℚ), m1 ≤ m2 → composite m1 n ≤ composite m2 n) ∧
    (∀ (m : ℚ) (n1 n2 : Nat), 0 ≤ m → n1 ≤ n2 → composite m n1 ≤ composite m n2) ∧
    (∀ cs : List Chunk, (∀ c ∈ cs, scoreThreshold ≤ c.score) →
      ∀ g1 ∈ groupChunks cs, ∀ g2 ∈ groupChunks cs,
        g1.scores.sum / (g1.scores.length : ℚ) =
          g2.scores.sum / (g2.scores.length : ℚ) →
        g2.scores.length < g1.scores.length →
        (mergeGroup g2).score < (mergeGroup g1).score) := by
  refine ⟨?_, ?_, ?_⟩
  · intro n m1 m2 h
    have hn : (0 : ℚ) ≤ (n : ℚ) := Nat.cast_nonneg n
    have hk : 0 ≤ 1 + ((n : ℚ) - 1) * (1 / 4) := by linarith
    exact mul_le_mul_of_nonneg_right h hk
  · intro m n1 n2 hm h
    have hc : (n1 : ℚ) ≤ (n2 : ℚ) := by exact_mod_cast h
    have hk : 1 + ((n1 : ℚ) - 1) * (1 / 4) ≤ 1 + ((n2 : ℚ) - 1) * (1 / 4) := by
      linarith
    exact mul_le_mul_of_nonneg_left hk hm
  · intro cs hthr g1 hg1 g2 hg2 hmean hlt
    obtain ⟨hlen1, hpos1⟩ := group_mean_pos cs hthr hg1
    obtain ⟨hlen2, hpos2⟩ := group_mean_pos cs hthr hg2
    show composite (g2.scores.sum / (g2.scores.length : ℚ)) g2.scores.length <
      composite (g1.scores.sum / (g1.scores.length : ℚ)) g1.scores.length
    rw [hmean]
    have hc : ((g2.scores.length : ℚ)) < ((g1.scores.length : ℚ)) := by
      exact_mod_cast hlt
    have hk : 1 + ((g2.scores.length : ℚ) - 1) * (1 / 4) <
        1 + ((g1.scores.length : ℚ) - 1) * (1 / 4) := by linarith
    exact mul_lt_mul_of_pos_left hk hpos2

/-- C7, witness: concrete instances of all three parts; for the strict part,
two groups over threshold-passing fragments with equal mean 4/5 and sizes 2
and 1. -/
theorem C7_witness :
    composite (1 / 2) 3 ≤ composite (2 / 3) 3 ∧
    composite (1 / 2) 1 ≤ composite (1 / 2) 2 ∧
    (mergeGroup ⟨[strChars "t3"], [4 / 5], "b"⟩).score <
      (mergeGroup ⟨[strChars "t1", strChars "t2"], [4 / 5, 4 / 5], "a"⟩).score := by
  refine ⟨C7_composite_monotone.1 3 (1 / 2) (2 / 3) (by norm_num),
    C7_composite_monotone.2.1 (1 / 2) 1 2 (by norm_num) (by norm_num), ?_⟩
  have hG : groupChunks
      [⟨strChars "t1", "a", 4 / 5⟩, ⟨strChars "t2", "a", 4 / 5⟩,
       ⟨strChars "t3", "b", 4 / 5⟩] =
      [⟨[strChars "t1", strChars "t2"], [4 / 5, 4 / 5], "a"⟩,
       ⟨[strChars "t3"], [4 / 5], "b"⟩] := by
    simp [groupChunks, addChunk]
  have h := C7_composite_monotone.2.2
    [⟨strChars "t1", "a", 4 / 5⟩, ⟨strChars "t2", "a", 4 / 5⟩,
     ⟨strChars "t3", "b", 4 / 5⟩]
    (by intro c hc; fin_cases hc <;> norm_num [scoreThreshold])
    ⟨[strChars "t1", strChars "t2"], [4 / 5, 4 / 5], "a"⟩ (by rw [hG]; simp)
    ⟨[strChars "t3"], [4 / 5], "b"⟩ (by rw [hG]; simp)
    (by norm_num) (by norm_num)
  exact h

/-! ### Verifier lemmas -/

theorem toNat_ofNat_of_valid {n : Nat} (h : n.isValidChar) :
    (Char.ofNat n).toNat = n := by
  simp only [Char.ofNat, dif_pos h, Char.ofNatAux, Char.toNat]
  rfl

theorem toLower_fix_of_not_upper {d : Char}
    (h : ¬(65 ≤ d.toNat ∧ d.toNat ≤ 90)) : Char.toLower d = d := by
  simp only [Char.toLower, ge_iff_le]
  rw [if_neg h]

theorem toLower_toNat_shift {c : Char} (h : 65 ≤ c.toNat ∧ c.toNat ≤ 90) :
    (Char.toLower c).toNat = c.toNat + 32 := by
  have hv : (c.toNat + 32).isValidChar := Or.inl (by omega)
  simp only [Char.toLower, ge_iff_le, if_pos h]
  exact toNat_ofNat_of_valid hv

theorem toLower_not_upper (c : Char) :
    ¬(65 ≤ (Char.toLower c).toNat ∧ (Char.toLower c).toNat ≤ 90) := by
  by_cases h : 65 ≤ c.toNat ∧ c.toNat ≤ 90
  · rw [toLower_toNat_shift h]
    omega
  · rw [toLower_fix_of_not_upper h]
    exact h

theorem toLower_idem (c : Char) : Char.toLower (Char.toLower c) = Char.toLower c :=
  toLower_fix_of_not_upper (toLower_not_upper c)

theorem pyStrip_of_no_ws {t : Str} (h : ∀ c ∈ t, isPySpace c = false) :
    pyStrip t = t := by
  have h1 : t.dropWhile isPySpace = t := by
    cases t with
    | nil => rfl
    | cons c cs => rw [List.dropWhile_cons_of_neg (by simp [h c (by simp)])]
  unfold pyStrip
  rw [h1]
  have h2 : t.reverse.dropWhile isPySpace = t.reverse := by
    cases ht : t.reverse with
    | nil => rfl
    | cons c cs =>
      have hc : c ∈ t := by
        rw [← List.mem_reverse, ht]
        simp
      rw [List.dropWhile_cons_of_neg (by simp [h c hc])]
  rw [h2, List.reverse_reverse]

theorem normalize_answer_no_ws (t : Str) :
    ∀ c ∈ normalize_answer t, isPySpace c = false := by
  intro c hc
  have := (List.mem_filter.mp hc).2
  simpa using this

theorem normalize_answer_lower_fixed (t : Str) :
    ∀ c ∈ normalize_answer t, Char.toLower c = c := by
  intro c hc
  have hmap := (List.mem_filter.mp hc).1
  obtain ⟨x, _, rfl⟩ := List.mem_map.mp hmap
  exact toLower_idem x

theorem normalize_answer_idem (t : Str) :
    normalize_answer (normalize_answer t) = normalize_answer t := by
  have hs := pyStrip_of_no_ws (normalize_answer_no_ws t)
  show ((pyStrip (normalize_answer t)).map Char.toLower).filter
      (fun c => !isPySpace c) = normalize_answer t
  rw [hs]
  have hm : (normalize_answer t).map Char.toLower = normalize_answer t := by
    have := List.map_congr_left (normalize_answer_lower_fixed t)
    rw [this, List.map_id']
  rw [hm]
  rw [List.filter_eq_self]
  intro c hc
  simp [normalize_answer_no_ws t c hc]

theorem get_synonyms_normalize (t : Str) :
    get_synonyms (normalize_answer t) = get_synonyms t := by
  show scanSynonyms synonym_map (normalize_answer (normalize_answer t)) =
    scanSynonyms synonym_map (normalize_answer t)
  rw [normalize_answer_idem]

theorem scanSynonyms_cases : ∀ (m : List (Str × List Str)) (n : Str),
    scanSynonyms m n = [n] ∨ ∃ e ∈ m, scanSynonyms m n = e.2.map normalize_answer := by
  intro m
  induction m with
  | nil => intro n; exact Or.inl rfl
  | cons e rest ih =>
    intro n
    by_cases h : n ∈ e.2.map normalize_answer
    · right
      exact ⟨e, by simp, by simp [scanSynonyms, h]⟩
    · rcases ih n with h2 | ⟨e2, he2, hs⟩
      · left
        simp [scanSynonyms, h, h2]
      · right
        exact ⟨e2, by simp [he2], by simp [scanSynonyms, h, hs]⟩

theorem nil_not_in_synonym_lists :
    ∀ e ∈ synonym_map, ([] : Str) ∉ e.2.map normalize_answer := by decide

theorem nil_not_mem_get_synonyms {c : Str} (hc : normalize_answer c ≠ []) :
    ([] : Str) ∉ get_synonyms c := by
  intro hmem
  rcases scanSynonyms_cases synonym_map (normalize_answer c) with h | ⟨e, he, h⟩
  · rw [get_synonyms, h] at hmem
    simp at hmem
    exact hc hmem
  · rw [get_synonyms, h] at hmem
    exact nil_not_in_synonym_lists e he hmem

theorem containsSub_nil_left (t : Str) : containsSub [] t = true := by
  cases t <;> rfl

theorem containsSub_nonnil_nil {p : Str} (h : p ≠ []) : containsSub p [] = false := by
  cases p with
  | nil => exact absurd rfl h
  | cons a as => rfl

/-- C3: `check_short_answer` classifies with strict top-to-bottom tier
precedence — Exact (normalized equality), then Synonym (intersecting synonym
expansions), then Partial (substring either way, both normalized lengths at
least 2, not equal), then Wrong — and returns the specified tier and
correctness on the five given inputs. -/
theorem C3_verify_tiers :
    (∀ u c : Str, normalize_answer u = normalize_answer c →
      check_short_answer u c = (true, strChars "exact", strChars "정답입니다!")) ∧
    (∀ u c : Str, normalize_answer u ≠ normalize_answer c →
      (∃ s ∈ get_synonyms u, s ∈ get_synonyms c) →
      check_short_answer u c = (true, strChars "synonym", strChars "정답입니다!")) ∧
    (∀ u c : Str, normalize_answer u ≠ normalize_answer c →
      (¬∃ s ∈ get_synonyms u, s ∈ get_synonyms c) →
      (containsSub (normalize_answer u) (normalize_answer c) = true ∨
        containsSub (normalize_answer c) (normalize_answer u) = true) →
      2 ≤ (normalize_answer u).length → 2 ≤ (normalize_answer c).length →
      (check_short_answer u c).1 = false ∧
      (check_short_answer u c).2.1 = strChars "partial") ∧
    (∀ u c : Str, normalize_answer u ≠ normalize_answer c →
      (¬∃ s ∈ get_synonyms u, s ∈ get_synonyms c) →
      ((containsSub (normalize_answer u) (normalize_answer c) = false ∧
        containsSub (normalize_answer c) (normalize_answer u) = false) ∨
        (normalize_answer u).length < 2 ∨ (normalize_answer c).length < 2) →
      (check_short_answer u c).1 = false ∧
      (check_short_answer u c).2.1 = strChars "wrong") ∧
    ((check_short_answer (strChars "EC2") (strChars "ec2")).1 = true ∧
      (check_short_answer (strChars "EC2") (strChars "ec2")).2.1 = strChars "exact") ∧
    ((check_short_answer (strChars "이씨투") (strChars "EC2")).1 = true ∧
      (check_short_answer (strChars "이씨투") (strChars "EC2")).2.1 =
        strChars "synonym") ∧
    ((check_short_answer (strChars "Amazon S3") (strChars "S3")).1 = false ∧
      (check_short_answer (strChars "Amazon S3") (strChars "S3")).2.1 =
        strChars "partial") ∧
    ((check_short_answer (strChars "a") (strChars "ab")).1 = false ∧
      (check_short_answer (strChars "a") (strChars "ab")).2.1 = strChars "wrong") ∧
    ((check_short_answer (strChars "VPC") (strChars "VPC")).1 = true ∧
      (check_short_answer (strChars "VPC") (strChars "VPC")).2.1 = strChars "exact") := by
  refine ⟨?_, ?_, ?_, ?_, by decide, by decide, by decide, by decide, by decide⟩
  · intro u c h
    simp only [check_short_answer]
    rw [if_pos h]
  · intro u c h1 h2
    have hany : ((get_synonyms u).any fun us => decide (us ∈ get_synonyms c)) = true := by
      rcases h2 with ⟨s, hs1, hs2⟩
      exact List.any_eq_true.mpr ⟨s, hs1, by simpa using hs2⟩
    simp only [check_short_answer]
    rw [if_neg h1, if_pos hany]
  · intro u c h1 h2 h3 h4 h5
    have hany : ((get_synonyms u).any fun us => decide (us ∈ get_synonyms c)) = false := by
      rw [List.any_eq_false]
      intro s hs
      simp only [decide_eq_true_eq]
      exact fun hmem => h2 ⟨s, hs, hmem⟩
    have hsub : (containsSub (normalize_answer u) (normalize_answer c) ||
        containsSub (normalize_answer c) (normalize_answer u)) = true :=
      by rcases h3 with h | h <;> simp [h]
    constructor <;>
    · simp only [check_short_answer]
      rw [if_neg h1, if_neg (by simp [hany]), if_pos hsub, if_pos ⟨h4, h5⟩,
        if_pos h1]
  · intro u c h1 h2 h3
    have hany : ((get_synonyms u).any fun us => decide (us ∈ get_synonyms c)) = false := by
      rw [List.any_eq_false]
      intro s hs
      simp only [decide_eq_true_eq]
      exact fun hmem => h2 ⟨s, hs, hmem⟩
    rcases h3 with ⟨hc1, hc2⟩ | hlen | hlen
    · constructor <;>
      · simp only [check_short_answer]
        rw [if_neg h1, if_neg (by simp [hany]), if_neg (by simp [hc1, hc2])]
    · have hl : ¬(2 ≤ (normalize_answer u).length ∧
          2 ≤ (normalize_answer c).length) := fun ⟨a, _⟩ => by omega
      constructor <;>
      · simp only [check_short_answer]
        rw [if_neg h1, if_neg (by simp [hany])]
        by_cases hsub : (containsSub (normalize_answer u) (normalize_answer c) ||
            containsSub (normalize_answer c) (normalize_answer u)) = true
        · rw [if_pos hsub, if_neg hl]
        · rw [if_neg hsub]
    · have hl : ¬(2 ≤ (normalize_answer u).length ∧
          2 ≤ (normalize_answer c).length) := fun ⟨_, b⟩ => by omega
      constructor <;>
      · simp only [check_short_answer]
        rw [if_neg h1, if_neg (by simp [hany])]
        by_cases hsub : (containsSub (normalize_answer u) (normalize_answer c) ||
            containsSub (normalize_answer c) (normalize_answer u)) = true
        · rw [if_pos hsub, if_neg hl]
        · rw [if_neg hsub]

/-- C3, witness: the Exact tier applied to `verify("VPC", "VPC")`. -/
theorem C3_witness :
    check_short_answer (strChars "VPC") (strChars "VPC") =
      (true, strChars "exact", strChars "정답입니다!") :=
  C3_verify_tiers.1 (strChars "VPC") (strChars "VPC") rfl

/-- C8: `normalize_answer` strips and collapses whitespace (the result contains
no whitespace character at all — the code deletes every `\s+` run) and
lowercases (the result contains no ASCII uppercase letter); it is idempotent,
and `check_short_answer` applies it to both the submitted and the canonical
answer before any comparison: its verdict and tier are invariant under
pre-normalizing both arguments. -/
theorem C8_normalization :
    (∀ t : Str, (∀ c ∈ normalize_answer t, isPySpace c = false) ∧
      (∀ c ∈ normalize_answer t, ¬(65 ≤ c.toNat ∧ c.toNat ≤ 90))) ∧
    (∀ t : Str, normalize_answer (normalize_answer t) = normalize_answer t) ∧
    (∀ u c : Str,
      (check_short_answer u c).1 =
        (check_short_answer (normalize_answer u) (normalize_answer c)).1 ∧
      (check_short_answer u c).2.1 =
        (check_short_answer (normalize_answer u) (normalize_answer c)).2.1) := by
  refine ⟨fun t => ⟨normalize_answer_no_ws t, ?_⟩, normalize_answer_idem, ?_⟩
  · intro c hc
    have hmap := (List.mem_filter.mp hc).1
    obtain ⟨x, _, rfl⟩ := List.mem_map.mp hmap
    exact toLower_not_upper x
  · intro u c
    simp only [check_short_answer, normalize_answer_idem, get_synonyms_normalize]
    by_cases h1 : normalize_answer u = normalize_answer c
    · rw [if_pos h1, if_pos h1]; exact ⟨rfl, rfl⟩
    · rw [if_neg h1, if_neg h1]
      by_cases h2 : ((get_synonyms u).any fun us => decide (us ∈ get_synonyms c)) = true
      · rw [if_pos h2, if_pos h2]; exact ⟨rfl, rfl⟩
      · rw [if_neg h2, if_neg h2]
        by_cases h3 : (containsSub (normalize_answer u) (normalize_answer c) ||
            containsSub (normalize_answer c) (normalize_answer u)) = true
        · rw [if_pos h3, if_pos h3]
          by_cases h4 : 2 ≤ (normalize_answer u).length ∧
              2 ≤ (normalize_answer c).length
          · rw [if_pos h4, if_pos h4]
            by_cases h5 : normalize_answer u ≠ normalize_answer c
            · rw [if_pos h5, if_pos h5]; exact ⟨rfl, rfl⟩
            · rw [if_neg h5, if_neg h5]; exact ⟨rfl, rfl⟩
          · rw [if_neg h4, if_neg h4]; exact ⟨rfl, rfl⟩
        · rw [if_neg h3, if_neg h3]; exact ⟨rfl, rfl⟩

/-- C10: a submission that normalizes to the empty string never earns the
Partial tier: if the canonical answer also normalizes to empty the result is
Exact and correct, and otherwise the result is Wrong and not correct — the
length-two floor blocks partial credit although the empty string is a
substring of every string. -/
theorem C10_empty_submission (u c : Str) (hu : normalize_answer u = []) :
    ((normalize_answer c = [] →
      check_short_answer u c = (true, strChars "exact", strChars "정답입니다!")) ∧
     (normalize_answer c ≠ [] →
      (check_short_answer u c).1 = false ∧
      (check_short_answer u c).2.1 = strChars "wrong")) ∧
    (check_short_answer u c).2.1 ≠ strChars "partial" := by
  have hexact : normalize_answer c = [] →
      check_short_answer u c = (true, strChars "exact", strChars "정답입니다!") := by
    intro hc
    simp only [check_short_answer]
    rw [if_pos (by rw [hu, hc])]
  have hwrong : normalize_answer c ≠ [] →
      (check_short_answer u c).1 = false ∧
      (check_short_answer u c).2.1 = strChars "wrong" := by
    intro hc
    have hgu : get_synonyms u = [([] : Str)] := by
      rw [get_synonyms, hu]
      decide
    have hsyn : ((get_synonyms u).any fun us => decide (us ∈ get_synonyms c)) = false := by
      rw [List.any_eq_false]
      intro s hs
      rw [hgu] at hs
      simp only [List.mem_singleton] at hs
      subst hs
      simp only [decide_eq_true_eq]
      exact nil_not_mem_get_synonyms hc
    have hne : normalize_answer u ≠ normalize_answer c := by
      rw [hu]; exact fun h => hc h.symm
    have hlen : ¬(2 ≤ (normalize_answer u).length ∧
        2 ≤ (normalize_answer c).length) := by
      rw [hu]; simp
    constructor <;>
    · simp only [check_short_answer]
      rw [if_neg hne, if_neg (by simp [hsyn])]
      by_cases hsub : (containsSub (normalize_answer u) (normalize_answer c) ||
          containsSub (normalize_answer c) (normalize_answer u)) = true
      · rw [if_pos hsub, if_neg hlen]
      · rw [if_neg hsub]
  refine ⟨⟨hexact, hwrong⟩, ?_⟩
  by_cases hc : normalize_answer c = []
  · rw [hexact hc]
    decide
  · rw [(hwrong hc).2]
    decide

/-- C10, witness: a whitespace-only submission against the canonical answer
`"ab"` is Wrong, not Partial. -/
theorem C10_witness :
    (check_short_answer (strChars "   ") (strChars "ab")).1 = false ∧
    (check_short_answer (strChars "   ") (strChars "ab")).2.1 = strChars "wrong" ∧
    (check_short_answer (strChars "   ") (strChars "ab")).2.1 ≠ strChars "partial" := by
  have h := C10_empty_submission (strChars "   ") (strChars "ab") (by decide)
  exact ⟨(h.1.2 (by decide)).1, (h.1.2 (by decide)).2, h.2⟩

/-! ### Extraction, repair and id lemmas -/

theorem toDec_no_underscore (n : Nat) : ('_' : Char) ∉ toDec n := by
  intro h
  have := toDec_all_digits n '_' h
  exact absurd this (by decide)

theorem append_sep_inj : ∀ (a1 b1 a2 b2 : Str), ('_' : Char) ∉ a1 → ('_' : Char) ∉ a2 →
    a1 ++ '_' :: b1 = a2 ++ '_' :: b2 → a1 = a2 ∧ b1 = b2 := by
  intro a1
  induction a1 with
  | nil =>
    intro b1 a2 b2 _ h2 h
    cases a2 with
    | nil => simpa using h
    | cons y ys =>
      simp only [List.nil_append, List.cons_append, List.cons.injEq] at h
      exact absurd (h.1 ▸ List.mem_cons_self y ys) h2
  | cons x xs ih =>
    intro b1 a2 b2 h1 h2 h
    cases a2 with
    | nil =>
      simp only [List.nil_append, List.cons_append, List.cons.injEq] at h
      exact absurd (h.1 ▸ List.mem_cons_self x xs) h1
    | cons y ys =>
      simp only [List.cons_append, List.cons.injEq] at h
      obtain ⟨ha, hb⟩ := ih b1 ys b2 (fun hm => h1 (List.mem_cons_of_mem x hm))
        (fun hm => h2 (List.mem_cons_of_mem y hm)) h.2
      exact ⟨by rw [h.1, ha], hb⟩

theorem mkQuestionId_inj_uid {u1 i1 u2 i2 : Nat}
    (h : mkQuestionId u1 i1 = mkQuestionId u2 i2) : u1 = u2 := by
  obtain ⟨ha, _⟩ := append_sep_inj (toDec u1) (toDec i1) (toDec u2) (toDec i2)
    (toDec_no_underscore u1) (toDec_no_underscore u2) h
  have := congrArg digitsToNat ha
  rwa [digitsToNat_toDec, digitsToNat_toDec] at this

theorem normalize_one_question_number (uid idx : Nat) (d t y : Str) (q : RawQ) :
    (normalize_one_question uid idx d t y q).number = mkQuestionId uid idx := by
  unfold normalize_one_question
  split <;> rfl

theorem normalize_one_question_display (uid idx : Nat) (d t y : Str) (q : RawQ) :
    (normalize_one_question uid idx d t y q).display_number = idx := by
  unfold normalize_one_question
  split <;> rfl

theorem mem_rag_normalize {uid : Nat} {d t y : Str} :
    ∀ (qs : List RawQ) (i : Nat) (r : QuestionRecord),
    r ∈ rag_normalize_questions uid d t y i qs →
    ∃ j, i ≤ j ∧ r.number = mkQuestionId uid j := by
  intro qs
  induction qs with
  | nil => intro i r hr; simp [rag_normalize_questions] at hr
  | cons q qs ih =>
    intro i r hr
    rcases List.mem_cons.mp hr with rfl | hr2
    · exact ⟨i, le_refl i, normalize_one_question_number uid i d t y q⟩
    · obtain ⟨j, hj, hn⟩ := ih (i + 1) r hr2
      exact ⟨j, by omega, hn⟩

theorem rag_normalize_get_display {uid : Nat} {d t y : Str} :
    ∀ (qs : List RawQ) (i k : Nat)
      (hk : k < (rag_normalize_questions uid d t y i qs).length),
    ((rag_normalize_questions uid d t y i qs).get ⟨k, hk⟩).display_number = i + k := by
  intro qs
  induction qs with
  | nil => intro i k hk; simp [rag_normalize_questions] at hk
  | cons q qs ih =>
    intro i k hk
    cases k with
    | zero => simpa using normalize_one_question_display uid i d t y q
    | succ k =>
      have := ih (i + 1) k (by
        simp only [rag_normalize_questions, List.length_cons] at hk
        omega)
      simpa [rag_normalize_questions, Nat.add_assoc, Nat.add_comm 1 k] using this

/-- C4, counterexample: two batches that observe the same millisecond
timestamp (`int(time.time() * 1000)` returning the same value twice) produce
identical record ids even with different content — the claim that two batches
in the same process never share an id fails. -/
theorem C4_counterexample :
    (rag_answer_chain_normalize 1000 (strChars "보통") (strChars "EC2")
        (strChars "객관식") [⟨strChars "Q1", none, none, none, none⟩]).map
      QuestionRecord.number =
    (rag_answer_chain_normalize 1000 (strChars "보통") (strChars "EC2")
        (strChars "객관식") [⟨strChars "Q2", none, none, none, none⟩]).map
      QuestionRecord.number := by decide

/-- C4, amended: provided the two batches observe distinct timestamps
(`uid1 ≠ uid2` — what the id scheme relies on), no record id of one batch
equals a record id of the other, whatever the content; and within every batch
each record's `display_number` equals its 1-based position. -/
theorem C4_batch_ids (uid1 uid2 : Nat) (h : uid1 ≠ uid2)
    (d1 t1 y1 d2 t2 y2 : Str) (qs1 qs2 : List RawQ) :
    (∀ r1 ∈ rag_answer_chain_normalize uid1 d1 t1 y1 qs1,
     ∀ r2 ∈ rag_answer_chain_normalize uid2 d2 t2 y2 qs2,
       r1.number ≠ r2.number) ∧
    (∀ (uid : Nat) (d t y : Str) (qs : List RawQ) (k : Nat)
      (hk : k < (rag_answer_chain_normalize uid d t y qs).length),
      ((rag_answer_chain_normalize uid d t y qs).get ⟨k, hk⟩).display_number = k + 1) := by
  constructor
  · intro r1 h1 r2 h2
    obtain ⟨j1, _, hn1⟩ := mem_rag_normalize qs1 1 r1 h1
    obtain ⟨j2, _, hn2⟩ := mem_rag_normalize qs2 1 r2 h2
    rw [hn1, hn2]
    intro hcon
    exact h (mkQuestionId_inj_uid hcon)
  · intro uid d t y qs k hk
    show ((rag_normalize_questions uid d t y 1 qs).get ⟨k, hk⟩).display_number = k + 1
    rw [rag_normalize_get_display qs 1 k hk]
    omega

/-- C4, witness: batches with timestamps 1 and 2 and identical content have
distinct first-record ids. -/
theorem C4_witness :
    (normalize_one_question 1 1 (strChars "보통") (strChars "EC2")
        (strChars "객관식") ⟨strChars "Q", none, none, none, none⟩).number ≠
    (normalize_one_question 2 1 (strChars "보통") (strChars "EC2")
        (strChars "객관식") ⟨strChars "Q", none, none, none, none⟩).number := by
  have h := (C4_batch_ids 1 2 (by decide) (strChars "보통") (strChars "EC2")
    (strChars "객관식") (strChars "보통") (strChars "EC2") (strChars "객관식")
    [⟨strChars "Q", none, none, none, none⟩]
    [⟨strChars "Q", none, none, none, none⟩]).1
  exact h _ (List.mem_cons_self _ _) _ (List.mem_cons_self _ _)

/-- C5: after post-extraction normalization, every short-answer (단답형)
record has empty options and empty `explanation.wrong`, and its answer is
never one of the four choice letters: a letter answer is overwritten with the
`정답 생성 오류` sentinel. -/
theorem C5_short_answer_post (uid : Nat) (d t : Str) (qs : List RawQ) :
    ∀ r ∈ rag_answer_chain_normalize uid d t (strChars "단답형") qs,
      r.options = [] ∧ r.explanation.wrong = [] ∧
      ∀ s ∈ choiceLetters, r.answer ≠ some s := by
  have key : ∀ (idx : Nat) (q : RawQ),
      (normalize_one_question uid idx d t (strChars "단답형") q).options = [] ∧
      (normalize_one_question uid idx d t (strChars "단답형") q).explanation.wrong = [] ∧
      ∀ s ∈ choiceLetters,
        (normalize_one_question uid idx d t (strChars "단답형") q).answer ≠ some s := by
    intro idx q
    unfold normalize_one_question
    rw [if_pos rfl]
    refine ⟨?_, ?_, ?_⟩
    · show (match q.options with
        | none => []
        | some opts => if opts ≠ [] then [] else opts) = []
      cases q.options with
      | none => rfl
      | some opts =>
        by_cases ho : opts = []
        · simp [ho]
        · simp [ho]
    · show (match q.explanation with
        | none => (⟨[], []⟩ : Expl)
        | some e => ⟨e.correct, []⟩).wrong = []
      cases q.explanation with
      | none => rfl
      | some e => rfl
    · intro s hs
      show (if pyUpper (q.answer.getD []) ∈ choiceLetters then
          some (strChars "정답 생성 오류") else q.answer) ≠ some s
      by_cases hc : pyUpper (q.answer.getD []) ∈ choiceLetters
      · rw [if_pos hc]
        fin_cases hs <;> intro hcon <;> exact absurd hcon (by decide)
      · rw [if_neg hc]
        fin_cases hs <;>
        · intro hcon
          rw [hcon] at hc
          exact hc (by decide)
  have lift : ∀ (qs2 : List RawQ) (i : Nat),
      ∀ r ∈ rag_normalize_questions uid d t (strChars "단답형") i qs2,
      r.options = [] ∧ r.explanation.wrong = [] ∧
      ∀ s ∈ choiceLetters, r.answer ≠ some s := by
    intro qs2
    induction qs2 with
    | nil => intro i r hr; simp [rag_normalize_questions] at hr
    | cons q qs2 ih =>
      intro i r hr
      rcases List.mem_cons.mp hr with rfl | hr2
      · exact key i q
      · exact ih (i + 1) r hr2
  exact lift qs 1

/-- C5, witness: a short-answer record extracted with the lowercase letter
answer `"a"` and non-empty options is normalized to empty options, empty
wrong-explanations, and the sentinel answer (in particular not `"A"`). -/
theorem C5_witness :
    (normalize_one_question 5 1 (strChars "보통") (strChars "S3")
        (strChars "단답형")
        ⟨strChars "Q", some [(strChars "A", strChars "x")], some (strChars "a"),
          none, none⟩).options = [] ∧
    (normalize_one_question 5 1 (strChars "보통") (strChars "S3")
        (strChars "단답형")
        ⟨strChars "Q", some [(strChars "A", strChars "x")], some (strChars "a"),
          none, none⟩).explanation.wrong = [] ∧
    (normalize_one_question 5 1 (strChars "보통") (strChars "S3")
        (strChars "단답형")
        ⟨strChars "Q", some [(strChars "A", strChars "x")], some (strChars "a"),
          none, none⟩).answer ≠ some (strChars "A") := by
  have h := C5_short_answer_post 5 (strChars "보통") (strChars "S3")
    [⟨strChars "Q", some [(strChars "A", strChars "x")], some (strChars "a"),
      none, none⟩] _ (List.mem_cons_self _ _)
  exact ⟨h.1, h.2.1, h.2.2 (strChars "A") (by decide)⟩

theorem firstIdxOf_eq_none_iff (c : Char) :
    ∀ t : Str, firstIdxOf c t = none ↔ c ∉ t := by
  intro t
  induction t with
  | nil => simp [firstIdxOf]
  | cons x xs ih =>
    by_cases hx : x = c
    · simp [firstIdxOf, hx]
    · simp only [firstIdxOf, if_neg hx, List.mem_cons]
      constructor
      · intro h hc
        rcases hc with rfl | hc
        · exact hx rfl
        · exact (ih.mp (by
            cases hfi : firstIdxOf c xs with
            | none => rfl
            | some k => rw [hfi] at h; simp at h)) hc
      · intro h
        rw [ih.mpr (fun hc => h (Or.inr hc))]
        rfl

/-- C6: `extract_json` returns `none` whenever the text lacks a `{` or lacks a
`}` (and, by construction of its `Option` result, never raises); and the
repair path `create_error_question` with count 2 and type 단답형 returns
exactly 2 records, each labeled as a generation error in its question text and
explanation, each with empty options and the 단답형 sentinel answer `오류`,
while every other type receives the sentinel answer `"A"`. -/
theorem C6_extract_and_repair :
    (∀ t : Str, (lbraceCh ∉ t ∨ rbraceCh ∉ t) → extract_json t = none) ∧
    (∀ uid : Nat,
      (create_error_question (strChars "S3") (strChars "보통")
        (strChars "단답형") 2 uid).length = 2 ∧
      ∀ q ∈ create_error_question (strChars "S3") (strChars "보통")
          (strChars "단답형") 2 uid,
        q.options = [] ∧
        q.answer = some (strChars "오류") ∧
        q.question = strChars "문제 생성 오류 (" ++ toDec q.display_number ++
          '/' :: toDec 2 ++ [')'] ∧
        q.explanation.correct = strChars "JSON 파싱 오류") ∧
    (∀ (uid num : Nat) (topic difficulty question_type : Str),
      question_type ≠ strChars "단답형" →
      ∀ q ∈ create_error_question topic difficulty question_type num uid,
        q.answer = some (strChars "A")) := by
  refine ⟨?_, ?_, ?_⟩
  · intro t h
    rcases h with h | h
    · unfold extract_json
      rw [(firstIdxOf_eq_none_iff lbraceCh t).mpr h]
    · unfold extract_json
      have : firstIdxOf rbraceCh t.reverse = none :=
        (firstIdxOf_eq_none_iff rbraceCh t.reverse).mpr (by simpa using h)
      unfold lastIdxOf
      rw [this]
      cases firstIdxOf lbraceCh t <;> rfl
  · intro uid
    constructor
    · simp [create_error_question]
    · intro q hq
      obtain ⟨k, hk, rfl⟩ := List.mem_map.mp hq
      refine ⟨by rw [if_pos rfl], ?_, ?_, rfl⟩
      · show some (if strChars "단답형" = strChars "단답형" then strChars "오류"
          else strChars "A") = some (strChars "오류")
        rw [if_pos rfl]
      · rfl
  · intro uid num topic difficulty question_type hy q hq
    obtain ⟨k, hk, rfl⟩ := List.mem_map.mp hq
    show some (if question_type = strChars "단답형" then strChars "오류"
      else strChars "A") = some (strChars "A")
    rw [if_neg hy]

/-- C6, witness: a brace-free text extracts to `none`, and the concrete repair
batch for uid 7 has exactly two 단답형 error records. -/
theorem C6_witness :
    extract_json (strChars "no json here") = none ∧
    (create_error_question (strChars "S3") (strChars "보통")
      (strChars "단답형") 2 7).length = 2 := by
  refine ⟨C6_extract_and_repair.1 (strChars "no json here") (Or.inl (by decide)), ?_⟩
  exact (C6_extract_and_repair.2.1 7).1

/-! ### Idempotence of the reference-line substitution

The `참고:\s*[, ]*$` pass is idempotent on every text: its replacement cannot
be matched again, and a replacement never enables a match elsewhere, because
the backtracking region of the pattern is confined to whitespace/`[, ]`
characters and substitution preserves both that region and the class of the
character that terminates it. -/

theorem wsOrCS_false_elim {x : Char} (hx : wsOrCS x = false) :
    isPySpace x = false ∧ ¬(x = ',' ∨ x = ' ') ∧ x ≠ '\n' := by
  simp only [wsOrCS, Bool.or_eq_false_iff] at hx
  obtain ⟨hsp, hcs⟩ := hx
  refine ⟨hsp, ?_, ?_⟩
  · intro hor
    rcases hor with h | h <;> simp [h] at hcs
  · intro h
    rw [h] at hsp
    simp [isPySpace] at hsp

theorem csEol_head_bad {x : Char} (hx : wsOrCS x = false) (r : Str) :
    csEol (x :: r) = none := by
  obtain ⟨hsp, hcs, hn⟩ := wsOrCS_false_elim hx
  unfold csEol
  rw [if_neg hcs, if_neg (by simp [atEol, hn])]

theorem spCsEol_head_bad {x : Char} (hx : wsOrCS x = false) (r : Str) :
    spCsEol (x :: r) = none := by
  obtain ⟨hsp, _, _⟩ := wsOrCS_false_elim hx
  unfold spCsEol
  rw [if_neg (by simp [hsp])]
  exact csEol_head_bad hx r

theorem csEol_pair : ∀ (q s1 s2 : Str),
    ((s1 = [] ∧ s2 = []) ∨
      ((∃ x r, s1 = x :: r ∧ wsOrCS x = false) ∧
       (∃ x r, s2 = x :: r ∧ wsOrCS x = false))) →
    csEol (q ++ s1) = csEol (q ++ s2) := by
  intro q
  induction q with
  | nil =>
    intro s1 s2 h
    rcases h with ⟨rfl, rfl⟩ | ⟨⟨x1, r1, rfl, hx1⟩, ⟨x2, r2, rfl, hx2⟩⟩
    · rfl
    · simp only [List.nil_append]
      rw [csEol_head_bad hx1, csEol_head_bad hx2]
  | cons c q ih =>
    intro s1 s2 h
    have hrec := ih s1 s2 h
    simp only [List.cons_append]
    unfold csEol
    rw [hrec]
    simp only [atEol]

theorem spCsEol_pair : ∀ (p s1 s2 : Str),
    ((s1 = [] ∧ s2 = []) ∨
      ((∃ x r, s1 = x :: r ∧ wsOrCS x = false) ∧
       (∃ x r, s2 = x :: r ∧ wsOrCS x = false))) →
    spCsEol (p ++ s1) = spCsEol (p ++ s2) := by
  intro p
  induction p with
  | nil =>
    intro s1 s2 h
    rcases h with ⟨rfl, rfl⟩ | ⟨⟨x1, r1, rfl, hx1⟩, ⟨x2, r2, rfl, hx2⟩⟩
    · rfl
    · simp only [List.nil_append]
      rw [spCsEol_head_bad hx1, spCsEol_head_bad hx2]
  | cons c p ih =>
    intro s1 s2 h
    have hrec := ih s1 s2 h
    have hcs := csEol_pair (c :: p) s1 s2 h
    simp only [List.cons_append] at hcs ⊢
    unfold spCsEol
    rw [hrec]
    by_cases hc : isPySpace c = true
    · rw [if_pos hc, if_pos hc]
      cases h2 : spCsEol (p ++ s2) with
      | some m => rfl
      | none =>
        dsimp only
        exact hcs
    · rw [if_neg hc, if_neg hc]
      exact hcs

theorem dropWhile_head_false {p : Char → Bool} :
    ∀ (l : List Char) (x : Char) (r : List Char),
    l.dropWhile p = x :: r → p x = false := by
  intro l
  induction l with
  | nil => intro x r h; simp at h
  | cons c cs ih =>
    intro x r h
    by_cases hc : p c = true
    · rw [List.dropWhile_cons_of_pos hc] at h
      exact ih x r h
    · rw [List.dropWhile_cons_of_neg hc] at h
      cases h
      simpa using hc

theorem repl_chars :
    strChars "참고: (없음)" = ['참', '고', ':', ' ', '(', '없', '음', ')'] := rfl

theorem gibo_some_elim {s out rest : Str} (h : giboMatcher s = some (out, rest)) :
    out = strChars "참고: (없음)" ∧
    ∃ r m, s = '참' :: '고' :: ':' :: r ∧ spCsEol r = some m ∧ rest = r.drop m := by
  match s with
  | [] => exact absurd h (by simp [giboMatcher])
  | [c] => exact absurd h (by simp [giboMatcher])
  | [c, d] => exact absurd h (by simp [giboMatcher])
  | c :: d :: e :: r =>
    simp only [giboMatcher] at h
    split at h
    · rename_i hcond
      obtain ⟨hc, hd, he⟩ := hcond
      cases hm : spCsEol r with
      | some m =>
        rw [hm] at h
        simp only [Option.some.injEq, Prod.mk.injEq] at h
        subst hc; subst hd; subst he
        exact ⟨h.1.symm, r, m, rfl, hm, h.2.symm⟩
      | none =>
        rw [hm] at h
        exact absurd h (by simp)
    · exact absurd h (by simp)

theorem gibo_not_go {d : Char} (hd : d ≠ '고') :
    ∀ X : Str, giboMatcher ('참' :: d :: X) = none := by
  intro X
  match X with
  | [] => rfl
  | e :: r => simp [giboMatcher, hd]

theorem gibo_not_colon {e : Char} (he : e ≠ ':') (X : Str) :
    giboMatcher ('참' :: '고' :: e :: X) = none := by
  simp [giboMatcher, he]

theorem gibo_go_colon (r : Str) :
    giboMatcher ('참' :: '고' :: ':' :: r) =
      match spCsEol r with
      | some m => some (strChars "참고: (없음)", r.drop m)
      | none => none := by
  simp [giboMatcher]

theorem csEol_paren (X : Str) : csEol ('(' :: X) = none :=
  csEol_head_bad (by decide) X

theorem spCsEol_space_paren (X : Str) : spCsEol (' ' :: '(' :: X) = none := by
  unfold spCsEol
  rw [if_pos (by decide)]
  rw [spCsEol_head_bad (by decide) X]
  dsimp only
  unfold csEol
  rw [if_pos (by decide)]
  rw [csEol_paren X]
  dsimp only
  rw [if_neg (by simp [atEol])]

theorem gibo_repl_none (X : Str) :
    giboMatcher ('참' :: '고' :: ':' :: ' ' :: '(' :: X) = none := by
  rw [gibo_go_colon, spCsEol_space_paren]

theorem gibo_scan_no_cham {s : Str} (hs : ∀ c ∈ s, (c == '참') = false) (r : Str) :
    scanSub giboMatcher (s ++ r) = s ++ scanSub giboMatcher r :=
  scanSub_append_of_no_trigger giboMatcher_shrinking
    (fun _ _ h => giboMatcher_not_cham h) hs r

theorem gibo_scan_repl (ys : Str) :
    scanSub giboMatcher (strChars "참고: (없음)" ++ ys) =
      strChars "참고: (없음)" ++ scanSub giboMatcher ys := by
  rw [repl_chars]
  have h1 : scanSub giboMatcher ('참' :: (['고', ':', ' ', '(', '없', '음', ')'] ++ ys)) =
      '참' :: scanSub giboMatcher (['고', ':', ' ', '(', '없', '음', ')'] ++ ys) :=
    scanSub_cons_none giboMatcher_shrinking (gibo_repl_none _)
  have h2 : scanSub giboMatcher (['고', ':', ' ', '(', '없', '음', ')'] ++ ys) =
      ['고', ':', ' ', '(', '없', '음', ')'] ++ scanSub giboMatcher ys :=
    gibo_scan_no_cham (by decide) ys
  calc scanSub giboMatcher (['참', '고', ':', ' ', '(', '없', '음', ')'] ++ ys)
      = scanSub giboMatcher ('참' :: (['고', ':', ' ', '(', '없', '음', ')'] ++ ys)) := by
        simp only [List.cons_append]
    _ = '참' :: scanSub giboMatcher (['고', ':', ' ', '(', '없', '음', ')'] ++ ys) := h1
    _ = '참' :: (['고', ':', ' ', '(', '없', '음', ')'] ++ scanSub giboMatcher ys) := by
        rw [h2]
    _ = ['참', '고', ':', ' ', '(', '없', '음', ')'] ++ scanSub giboMatcher ys := by
        simp only [List.cons_append]

theorem spCsEol_scanSub_gibo (r : Str) :
    spCsEol (scanSub giboMatcher r) = spCsEol r := by
  have hdec : r.takeWhile wsOrCS ++ r.dropWhile wsOrCS = r :=
    List.takeWhile_append_dropWhile wsOrCS r
  have hp : ∀ c ∈ r.takeWhile wsOrCS, (c == '참') = false := by
    intro c hc
    have hw : wsOrCS c = true := List.mem_takeWhile_imp hc
    have hne : c ≠ '참' := ne_of_pred_true_false hw (by decide)
    simpa using hne
  have hscan : scanSub giboMatcher r =
      r.takeWhile wsOrCS ++ scanSub giboMatcher (r.dropWhile wsOrCS) := by
    conv_lhs => rw [← hdec]
    exact gibo_scan_no_cham hp _
  have hpair : ((scanSub giboMatcher (r.dropWhile wsOrCS) = [] ∧ r.dropWhile wsOrCS = []) ∨
      ((∃ x s, scanSub giboMatcher (r.dropWhile wsOrCS) = x :: s ∧ wsOrCS x = false) ∧
       (∃ x s, r.dropWhile wsOrCS = x :: s ∧ wsOrCS x = false))) := by
    cases hs : r.dropWhile wsOrCS with
    | nil =>
      left
      exact ⟨rfl, rfl⟩
    | cons x xs =>
      have hx : wsOrCS x = false := dropWhile_head_false r x xs hs
      right
      refine ⟨?_, ⟨x, xs, rfl, hx⟩⟩
      cases hm : giboMatcher (x :: xs) with
      | none =>
        exact ⟨x, scanSub giboMatcher xs, scanSub_cons_none giboMatcher_shrinking hm, hx⟩
      | some pr =>
        obtain ⟨out, rest⟩ := pr
        have heq := scanSub_cons_some giboMatcher_shrinking hm
        rw [(gibo_some_elim hm).1, repl_chars] at heq
        exact ⟨'참', _, heq, by decide⟩
  calc spCsEol (scanSub giboMatcher r)
      = spCsEol (r.takeWhile wsOrCS ++ scanSub giboMatcher (r.dropWhile wsOrCS)) := by
        rw [hscan]
    _ = spCsEol (r.takeWhile wsOrCS ++ r.dropWhile wsOrCS) := spCsEol_pair _ _ _ hpair
    _ = spCsEol r := by rw [hdec]

theorem gibo_none_scan (c : Char) (cs : Str) (h : giboMatcher (c :: cs) = none) :
    giboMatcher (c :: scanSub giboMatcher cs) = none := by
  by_cases hch : c = '참'
  · subst hch
    match cs with
    | [] => rfl
    | [d] =>
      have h0 : giboMatcher [d] = none := rfl
      have h1 : scanSub giboMatcher [d] = [d] := by
        rw [scanSub_cons_none giboMatcher_shrinking h0]
        rfl
      rw [h1]
      exact h
    | d :: e :: r =>
      cases hm : giboMatcher (d :: e :: r) with
      | some pr =>
        obtain ⟨out, rest⟩ := pr
        rw [scanSub_cons_some giboMatcher_shrinking hm]
        rw [(gibo_some_elim hm).1, repl_chars]
        exact gibo_not_go (by decide) _
      | none =>
        rw [scanSub_cons_none giboMatcher_shrinking hm]
        by_cases hd : d = '고'
        · subst hd
          cases hm2 : giboMatcher (e :: r) with
          | some pr2 =>
            obtain ⟨out2, rest2⟩ := pr2
            rw [scanSub_cons_some giboMatcher_shrinking hm2]
            rw [(gibo_some_elim hm2).1, repl_chars]
            exact gibo_not_colon (by decide) _
          | none =>
            rw [scanSub_cons_none giboMatcher_shrinking hm2]
            by_cases he : e = ':'
            · subst he
              rw [gibo_go_colon] at h
              cases hs2 : spCsEol r with
              | some m =>
                rw [hs2] at h
                simp at h
              | none =>
                rw [gibo_go_colon, spCsEol_scanSub_gibo, hs2]
            · exact gibo_not_colon he _
        · exact gibo_not_go hd _
  · exact giboMatcher_not_cham (by simpa using hch)

/-- The reference-line substitution of `clean_hallucinated_references`
(src/rag_app.py line 174) is idempotent on every text. -/
theorem fixEmptyRefLine_idem (t : Str) :
    fixEmptyRefLine (fixEmptyRefLine t) = fixEmptyRefLine t := by
  have main : ∀ n (t : Str), t.length ≤ n →
      scanSub giboMatcher (scanSub giboMatcher t) = scanSub giboMatcher t := by
    intro n
    induction n with
    | zero =>
      intro t hl
      have ht : t = [] := List.length_eq_zero.mp (Nat.le_zero.mp hl)
      subst ht
      rfl
    | succ n ih =>
      intro t hl
      match t with
      | [] => rfl
      | c :: cs =>
        cases hm : giboMatcher (c :: cs) with
        | none =>
          rw [scanSub_cons_none giboMatcher_shrinking hm]
          rw [scanSub_cons_none giboMatcher_shrinking (gibo_none_scan c cs hm)]
          rw [ih cs (by simp only [List.length_cons] at hl; omega)]
        | some pr =>
          obtain ⟨out, rest⟩ := pr
          rw [scanSub_cons_some giboMatcher_shrinking hm]
          have ho := (gibo_some_elim hm).1
          subst ho
          rw [gibo_scan_repl]
          have hlen : rest.length ≤ n := by
            have := giboMatcher_shrinking c cs _ rest hm
            simp only [List.length_cons] at hl
            omega
          rw [ih rest hlen]
  exact main t.length t (le_refl _)

/-- The reference-line substitution introduces no `[` character into a
`[`-free text. -/
theorem fixEmptyRefLine_no_lbracket {t : Str} (h : ('[' : Char) ∉ t) :
    ('[' : Char) ∉ fixEmptyRefLine t := by
  have main : ∀ n (t : Str), t.length ≤ n → ('[' : Char) ∉ t →
      ('[' : Char) ∉ scanSub giboMatcher t := by
    intro n
    induction n with
    | zero =>
      intro t hl ht
      have heq : t = [] := List.length_eq_zero.mp (Nat.le_zero.mp hl)
      subst heq
      rw [scanSub_nil]
      simp
    | succ n ih =>
      intro t hl ht
      match t with
      | [] =>
        rw [scanSub_nil]
        simp
      | c :: cs =>
        have hc : c ≠ '[' := by
          intro he
          subst he
          exact ht (List.mem_cons_self _ _)
        have htcs : ('[' : Char) ∉ cs := fun hm2 => ht (List.mem_cons_of_mem c hm2)
        cases hm : giboMatcher (c :: cs) with
        | none =>
          rw [scanSub_cons_none giboMatcher_shrinking hm]
          intro hmem
          rcases List.mem_cons.mp hmem with he | hin
          · exact hc he.symm
          · exact ih cs (by simp only [List.length_cons] at hl; omega) htcs hin
        | some pr =>
          obtain ⟨out, rest⟩ := pr
          rw [scanSub_cons_some giboMatcher_shrinking hm]
          obtain ⟨ho, r, m, hshape, hsp, hrest⟩ := gibo_some_elim hm
          intro hmem
          rcases List.mem_append.mp hmem with hin | hin
          · rw [ho, repl_chars] at hin
            exact absurd hin (by decide)
          · have hrl : rest.length ≤ n := by
              have := giboMatcher_shrinking c cs out rest hm
              simp only [List.length_cons] at hl
              omega
            have hrt : ('[' : Char) ∉ rest := by
              rw [hrest]
              intro hx
              have hxr : ('[' : Char) ∈ r := List.mem_of_mem_drop hx
              have hxt : ('[' : Char) ∈ c :: cs := by
                rw [hshape]
                exact List.mem_cons_of_mem _ (List.mem_cons_of_mem _
                  (List.mem_cons_of_mem _ hxr))
              exact ht hxt
            exact ih rest hrl hrt hin
  exact main t.length t (le_refl _) h

/-- C9, amended: `clean_hallucinated_references` is idempotent on every text
containing no `[` character: with no candidate citation marker the only active
pass is the reference-line substitution, which is idempotent in general (its
replacement can never be matched again and never enables a match elsewhere);
idempotence fails on arbitrary texts because deleting an out-of-range marker
can splice together a new marker (see the counterexample). -/
theorem C9_clean_idempotent_bracket_free (t : Str) (cnt : Nat)
    (h1 : ∀ c ∈ t, c ≠ '[') :
    clean_hallucinated_references (clean_hallucinated_references t cnt) cnt =
      clean_hallucinated_references t cnt := by
  have e1 : normalize_references t = t :=
    scanSub_id_of_no_trigger normMatcher_shrinking
      (fun c cs h => normMatcher_not_lbracket h) (fun c hc => by simpa using h1 c hc)
  have e2 : dropInvalidMarkers cnt t = t :=
    scanSub_id_of_no_trigger (remMatcher_shrinking cnt)
      (fun c cs h => remMatcher_not_lbracket h) (fun c hc => by simpa using h1 c hc)
  have hct : clean_hallucinated_references t cnt = fixEmptyRefLine t := by
    unfold clean_hallucinated_references
    rw [e1, e2]
  have hnb : (Char.ofNat 91) ∉ fixEmptyRefLine t :=
    fixEmptyRefLine_no_lbracket (fun hm => h1 _ hm rfl)
  have h1g : ∀ c ∈ fixEmptyRefLine t, (c == Char.ofNat 91) = false := by
    intro c hc
    have hne : c ≠ Char.ofNat 91 := fun he => hnb (he ▸ hc)
    simpa using hne
  have e1g : normalize_references (fixEmptyRefLine t) = fixEmptyRefLine t :=
    scanSub_id_of_no_trigger normMatcher_shrinking
      (fun c cs h => normMatcher_not_lbracket h) h1g
  have e2g : dropInvalidMarkers cnt (fixEmptyRefLine t) = fixEmptyRefLine t :=
    scanSub_id_of_no_trigger (remMatcher_shrinking cnt)
      (fun c cs h => remMatcher_not_lbracket h) h1g
  rw [hct]
  unfold clean_hallucinated_references
  rw [e1g, e2g]
  exact fixEmptyRefLine_idem t

/-- C9, witness: the amended idempotence theorem applied to a bracket-free
text that the cleaner actually rewrites (its dangling reference line becomes
the placeholder, and a second pass leaves the result unchanged). -/
theorem C9_witness :
    clean_hallucinated_references
        (clean_hallucinated_references (strChars "결과\n참고: ,") 2) 2 =
      clean_hallucinated_references (strChars "결과\n참고: ,") 2 :=
  C9_clean_idempotent_bracket_free (strChars "결과\n참고: ,") 2 (by decide)
